import Mathlib

/-!
The conman scheme: causal graphs and the enable/disable protocol.

A shallow embedding of `conman_proto/src/scheme.cpp`.  Stateful C++ is rendered
as explicit state passing over the record `Scheme`, which holds the members of
`conman::Scheme` together with the part of the host framework the scheme reads
and writes: the task contexts it points to, its peer list and a log of the
`start()` / `stop()` calls issued to blocks.
-/

namespace conman

/-! ## Host framework: task contexts, ports and channels -/

/-- Modelled from the spec: the lifecycle state of a block handle (section 3),
which the source reads through `getTaskState()`, `isRunning()` and
`isConfigured()` of the host's task context. -/
inductive TaskState where
  | Unconfigured
  | Stopped
  | Running
deriving DecidableEq, Repr

/-- One end of a channel: the port and the name of the component that owns the
port's interface (`getInterface()->getOwner()->getName()`); `owner = none`
renders `getInterface() == NULL`. -/
structure PortInterface where
  name : String
  owner : Option String
deriving DecidableEq, Repr

/-- A live channel of an output port, with the two ports the source reads from
it: `source_port` is `getOutputEndPoint()->getPort()` and `sink_port` is
`getInputEndPoint()->getPort()`; `none` renders a NULL port.  In the host
framework the output end point of a channel is the end attached to the
consuming input port and the input end point the end attached to the producing
output port, so `source_port` is the consumer's port and `sink_port` the
producer's. -/
structure ChannelDescriptor where
  source_port : Option PortInterface
  sink_port : Option PortInterface
deriving DecidableEq, Repr

/-- An output port with the channels its connection manager reports. -/
structure OutputPort where
  name : String
  channels : List ChannelDescriptor
deriving DecidableEq, Repr

/-- Modelled from the spec: the hook service of a block (section 4.1), whose
declaration is not part of the sources: the output ports a block registers,
each tagged with its layer, the block's period and the input ports the block
declared Exclusive. -/
structure HookService where
  output_ports : List (String × OutputPort)
  period : Int := 0
  exclusive_inputs : List String := []
deriving DecidableEq, Repr

/-- Modelled from the spec: a block handle (section 4.1).  `startHook` and
`stopHook` are the outcomes the block's own hooks report; `hook = none` is a
component without the conman hook service. -/
structure TaskContext where
  name : String
  state : TaskState
  startHook : Bool
  stopHook : Bool
  hook : Option HookService
deriving DecidableEq, Repr

/-- A call the scheme issued to a block, by the block's name. -/
inductive Call where
  | start (name : String)
  | stop (name : String)
deriving DecidableEq, Repr

/-! ## Causal graph -/

/-- The bundle the source stores on an edge, `{true, source_port, sink_port}`.
Nothing in the sources reads the flag: the sort runs over every edge. -/
structure EdgeProperties where
  connected : Bool
  source_port : PortInterface
  sink_port : PortInterface
deriving DecidableEq, Repr

/-- The bundle the source stores on a vertex.  `block` and `hook` are addresses
of task contexts (`hook` is the hook service provided by the task at that
address); a default-constructed bundle holds NULL in both. -/
structure VertexProperties where
  block : Option Nat := none
  hook : Option Nat := none
  last_estimation_time : Int := 0
  last_control_time : Int := 0
deriving DecidableEq, Repr

/-- Modelled from the spec: the labelled causal graph of one layer (sections 3
and 4.2), whose type declaration is not part of the sources.  Vertices are
kept in insertion order and are identified by their label, the block name;
edges are kept in insertion order and parallel edges are permitted. -/
structure CausalGraph where
  vertices : List (String × VertexProperties) := []
  edges : List (String × String × EdgeProperties) := []
deriving DecidableEq, Repr

/-- A serialization of a layer: vertex descriptors, here the vertex labels. -/
abbrev CausalOrdering := List String

namespace CausalGraph

/-- The labels of the vertices, in insertion order. -/
def names (g : CausalGraph) : List String := g.vertices.map Prod.fst

/-- Descriptor lookup by label, `graph.vertex(name)`; `none` is `null_vertex()`. -/
def vertex (g : CausalGraph) (name : String) : Option String :=
  if name ∈ g.names then some name else none

/-- Modelled from the spec: `addVertex` (section 4.2) does not add a second
vertex for a label that exists; the source ignores what it returns. -/
def add_vertex (g : CausalGraph) (name : String) : CausalGraph :=
  if name ∈ g.names then g
  else { g with vertices := g.vertices ++ [(name, {})] }

/-- Write access to the bundle of the vertex labelled `name`, `graph[name]`. -/
def modify (g : CausalGraph) (name : String) (f : VertexProperties → VertexProperties) :
    CausalGraph :=
  { g with vertices := g.vertices.map fun v => if v.1 = name then (v.1, f v.2) else v }

/-- Modelled from the spec: `removeVertex` (section 4.2) removes the vertex and
all incident edges. -/
def remove_vertex (g : CausalGraph) (name : String) : CausalGraph :=
  { vertices := g.vertices.filter fun v => v.1 ≠ name
    edges := g.edges.filter fun e => e.1 ≠ name ∧ e.2.1 ≠ name }

/-- Appends an edge between two labels, `boost::add_edge_by_label`. -/
def add_edge_by_label (g : CausalGraph) (source sink : String) (p : EdgeProperties) :
    CausalGraph :=
  { g with edges := g.edges ++ [(source, sink, p)] }

/-- The targets of the out-edges of `u`, in edge insertion order. -/
def out_targets (g : CausalGraph) (u : String) : List String :=
  (g.edges.filter fun e => e.1 = u).map fun e => e.2.1

end CausalGraph

/-- Outcome of the depth-first search behind `boost::topological_sort`, with
the vertices emitted so far. -/
inductive SortResult where
  | done (out : List String)
  | not_a_dag (out : List String)
  | out_of_fuel (out : List String)
deriving DecidableEq, Repr

/-- The depth-first visit of `boost::topological_sort` over a list of targets.
`gray` holds the vertices on the current search path, `out` the finished
vertices in finishing order.  A target on the search path is a back edge and
raises `not_a_dag`; a finished target is skipped; any other target is visited
and emitted once its out-edges are done. -/
def dfs_visit (g : CausalGraph) : Nat → List String → List String → List String → SortResult
  | _, [], _, out => SortResult.done out
  | 0, _ :: _, _, out => SortResult.out_of_fuel out
  | fuel + 1, v :: rest, gray, out =>
    if v ∈ gray then SortResult.not_a_dag out
    else if v ∈ out then dfs_visit g fuel rest gray out
    else
      match dfs_visit g fuel (g.out_targets v) (v :: gray) out with
      | SortResult.done out1 => dfs_visit g fuel rest gray (out1 ++ [v])
      | r => r

/-- Every step of the search consumes one target of the vertex list or of the
out-edge list of a vertex on the search path, so this much fuel is enough. -/
def sort_fuel (g : CausalGraph) : Nat := g.vertices.length + g.edges.length + 1

/-- The call `boost::topological_sort(graph.graph(), back_inserter(ordering))`
on a cleared ordering: the search starts from every vertex in insertion order
and appends each vertex when it is finished.  The flag is false when the
search threw; the ordering then holds what had been appended. -/
def topological_sort (g : CausalGraph) : Bool × CausalOrdering :=
  match dfs_visit g (sort_fuel g) g.names [] [] with
  | SortResult.done out => (true, out)
  | SortResult.not_a_dag out => (false, out)
  | SortResult.out_of_fuel out => (false, out)

/-! ## The scheme -/

/-- The members of `conman::Scheme` (`block_names_`, the two graphs, the two
serializations, `block_conflicts_`, `last_update_time_`) and the host state it
works on.  `tasks` maps an address to the task context stored there, `peers`
lists the addresses of the scheme's peers and `calls` logs the `start()` and
`stop()` calls made so far, oldest first.  `block_conflicts_` is read through
`operator[]`, so a name without an entry has the empty list. -/
structure Scheme where
  tasks : Nat → TaskContext
  peers : List Nat := []
  calls : List Call := []
  block_names_ : List String := []
  estimation_graph_ : CausalGraph := {}
  control_graph_ : CausalGraph := {}
  estimation_serialization_ : CausalOrdering := []
  control_serialization_ : CausalOrdering := []
  block_conflicts_ : String → List Nat := fun _ => []
  last_update_time_ : Int := 0

/-- The two layers of the scheme. -/
inductive Layer where
  | estimation
  | control
deriving DecidableEq, Repr

/-- The name under which the source passes a layer. -/
def Layer.name : Layer → String
  | Layer.estimation => "estimation"
  | Layer.control => "control"

/-- The serialization of a layer. -/
def Scheme.ordering (s : Scheme) : Layer → CausalOrdering
  | Layer.estimation => s.estimation_serialization_
  | Layer.control => s.control_serialization_

/-- The graph of a layer. -/
def Scheme.graph (s : Scheme) : Layer → CausalGraph
  | Layer.estimation => s.estimation_graph_
  | Layer.control => s.control_graph_

/-- A write through the reference `graph` that `add_block_to_graph` and
`regenerate_graph` are given: it lands in the member of the layer. -/
def Scheme.set_graph (s : Scheme) (l : Layer) (g : CausalGraph) : Scheme :=
  match l with
  | Layer.estimation => { s with estimation_graph_ := g }
  | Layer.control => { s with control_graph_ := g }

/-- A write through the reference `ordering` that `add_block_to_graph` and
`regenerate_graph` are given: it lands in the member of the layer. -/
def Scheme.set_ordering (s : Scheme) (l : Layer) (ordering : CausalOrdering) : Scheme :=
  match l with
  | Layer.estimation => { s with estimation_serialization_ := ordering }
  | Layer.control => { s with control_serialization_ := ordering }

/-- Modelled from the spec: peer lookup by name (section 6).  A name is the
identity of a block within a scheme, so a name resolves to the peer that
bears it; `none` is NULL. -/
def getPeer (s : Scheme) (block_name : String) : Option Nat :=
  s.peers.find? fun p => (s.tasks p).name = block_name

/-- Whether some peer bears the name. -/
def hasPeer (s : Scheme) (block_name : String) : Bool :=
  (getPeer s block_name).isSome

/-- Task-context query `isRunning()`. -/
def isRunning (t : TaskContext) : Bool := t.state = TaskState.Running

/-- Task-context query `isConfigured()`. -/
def isConfigured (t : TaskContext) : Bool := t.state ≠ TaskState.Unconfigured

/-- Modelled from the spec: `start()` of the block at address `b` (sections 4.1
and 4.5): a stopped block whose start hook succeeds becomes Running; failure
is reported and leaves the state as it is.  The call is logged. -/
def start (s : Scheme) (b : Nat) : Bool × Scheme :=
  let t := s.tasks b
  let s1 := { s with calls := s.calls ++ [Call.start t.name] }
  if t.state = TaskState.Stopped ∧ t.startHook = true then
    (true, { s1 with tasks := Function.update s1.tasks b { t with state := TaskState.Running } })
  else (false, s1)

/-- Modelled from the spec: `stop()` of the block at address `b` (sections 4.1
and 4.5): a running block whose stop hook succeeds becomes Stopped; failure is
reported and leaves the state as it is.  The call is logged. -/
def stop (s : Scheme) (b : Nat) : Bool × Scheme :=
  let t := s.tasks b
  let s1 := { s with calls := s.calls ++ [Call.stop t.name] }
  if t.state = TaskState.Running ∧ t.stopHook = true then
    (true, { s1 with tasks := Function.update s1.tasks b { t with state := TaskState.Stopped } })
  else (false, s1)

/-! ## Runtime controller -/

/-- The overload `Scheme::disable_block(RTT::TaskContext*)`. -/
def disable_block (s : Scheme) (block : Option Nat) : Bool × Scheme :=
  match block with
  | none => (false, s)
  | some b =>
    if isRunning (s.tasks b) then
      let r := stop s b
      if !r.1 then (false, r.2) else (true, r.2)
    else (true, s)

/-- The overload `Scheme::disable_block(const std::string&)`. -/
def disable_block_name (s : Scheme) (block_name : String) : Bool × Scheme :=
  disable_block s (getPeer s block_name)

/-- The loop of `Scheme::enable_block` over the conflict list.  The flag is
false when the loop returned false from the function. -/
def enable_block_conflicts (force : Bool) : List Nat → Scheme → Bool × Scheme
  | [], s => (true, s)
  | c :: rest, s =>
    if (s.tasks c).state = TaskState.Running then
      if force then
        let r := disable_block s (some c)
        if r.1 = false then (false, r.2)
        else enable_block_conflicts force rest r.2
      else (false, s)
    else enable_block_conflicts force rest s

/-- The overload `Scheme::enable_block(RTT::TaskContext*, bool)`. -/
def enable_block (s : Scheme) (block : Option Nat) (force : Bool) : Bool × Scheme :=
  match block with
  | none => (false, s)
  | some b =>
    let block_name := (s.tasks b).name
    let conflicts := s.block_conflicts_ block_name
    let r := enable_block_conflicts force conflicts s
    if r.1 = false then (false, r.2)
    else if !isConfigured (r.2.tasks b) then (false, r.2)
    else
      let r2 := start r.2 b
      if !r2.1 then (false, r2.2) else (true, r2.2)

/-- The overload `Scheme::enable_block(const std::string&, bool)`. -/
def enable_block_name (s : Scheme) (block_name : String) (force : Bool) : Bool × Scheme :=
  enable_block s (getPeer s block_name) force

/-- The loop of `Scheme::enable_blocks`, with the local `success`. -/
def enable_blocks_loop (strict force : Bool) : List String → Bool → Scheme → Bool × Scheme
  | [], success, s => (success, s)
  | name :: rest, success, s =>
    let r := enable_block_name s name force
    let success1 := success && r.1
    if !success1 && strict then (false, r.2)
    else enable_blocks_loop strict force rest success1 r.2

/-- The operation `Scheme::enable_blocks`. -/
def enable_blocks (s : Scheme) (block_names : List String) (strict force : Bool) :
    Bool × Scheme :=
  enable_blocks_loop strict force block_names true s

/-- The loop of `Scheme::disable_blocks`, with the local `success`. -/
def disable_blocks_loop (strict : Bool) : List String → Bool → Scheme → Bool × Scheme
  | [], success, s => (success, s)
  | name :: rest, success, s =>
    let r := disable_block_name s name
    let success1 := success && r.1
    if !success1 && strict then (false, r.2)
    else disable_blocks_loop strict rest success1 r.2

/-- The operation `Scheme::disable_blocks`. -/
def disable_blocks (s : Scheme) (block_names : List String) (strict : Bool) : Bool × Scheme :=
  disable_blocks_loop strict block_names true s

/-- The order in which the two operands of a built-in binary operator are
evaluated.  The language leaves it unspecified: a compiler may take either. -/
inductive OperandOrder where
  | left_first
  | right_first
deriving DecidableEq, Repr

/-- The operation `Scheme::switch_blocks`, whose body is the one expression
`disable_blocks(..) & enable_blocks(..)`.  Both operands are evaluated, in the
order the compiler chose, the second on the state the first left. -/
def switch_blocks (order : OperandOrder) (s : Scheme)
    (disable_block_names enable_block_names : List String) (strict force : Bool) :
    Bool × Scheme :=
  match order with
  | OperandOrder.left_first =>
    let d := disable_blocks s disable_block_names strict
    let e := enable_blocks d.2 enable_block_names strict force
    (d.1 && e.1, e.2)
  | OperandOrder.right_first =>
    let e := enable_blocks s enable_block_names strict force
    let d := disable_blocks e.2 disable_block_names strict
    (d.1 && e.1, d.2)

/-- The operation `Scheme::set_blocks`. -/
def set_blocks (order : OperandOrder) (s : Scheme) (enabled_block_names : List String)
    (strict : Bool) : Bool × Scheme :=
  switch_blocks order s s.block_names_ enabled_block_names strict false

/-! ## Graph construction -/

/-- The ports a hook service registered on a layer, `getOutputPortsOnLayer`. -/
def getOutputPortsOnLayer (h : HookService) (layer : String) : List OutputPort :=
  (h.output_ports.filter fun p => p.1 = layer).map Prod.snd

/-- The body of the channel loop of `Scheme::regenerate_graph`: an edge is
added when both end points and their interfaces are non-NULL and both owners
are vertices of the graph. -/
def add_channel_edge (graph : CausalGraph) (c : ChannelDescriptor) : CausalGraph :=
  match c.source_port, c.sink_port with
  | some source_port, some sink_port =>
    match source_port.owner, sink_port.owner with
    | some source_name, some sink_name =>
      if graph.vertex source_name ≠ none ∧ graph.vertex sink_name ≠ none then
        graph.add_edge_by_label source_name sink_name
          { connected := true, source_port := source_port, sink_port := sink_port }
      else graph
    | _, _ => graph
  | _, _ => graph

/-- The ports the source obtains for the vertex with descriptor `i`, the
position of the vertex in the graph being rebuilt.  It reads the bundle as
`estimation_graph_.graph()[*vert_it]`, that is the bundle at position `i` of
the estimation graph, whatever graph is rebuilt, and asks the hook of that
bundle for its output ports on the layer.  `none` when the estimation graph
has no vertex at that position or the bundle holds no hook service: the
behaviour of the source is then undefined. -/
def layer_ports (s : Scheme) (i : Nat) (layer : String) : Option (List OutputPort) :=
  match s.estimation_graph_.vertices[i]? with
  | none => none
  | some v =>
    match v.2.hook with
    | none => none
    | some h =>
      match (s.tasks h).hook with
      | none => none
      | some hs => some (getOutputPortsOnLayer hs layer)

/-- The vertex loop of `Scheme::regenerate_graph` over the descriptors that are
left to visit: for every descriptor, every output port obtained for it and
every channel of the port, try to add an edge.  Edges already in the graph
are kept. -/
def regenerate_edges_from (s : Scheme) (layer : String) :
    List Nat → CausalGraph → Option CausalGraph
  | [], g => some g
  | i :: rest, g =>
    match layer_ports s i layer with
    | none => none
    | some ports =>
      regenerate_edges_from s layer rest
        (ports.foldl (fun g1 port => port.channels.foldl add_channel_edge g1) g)

/-- The vertex loop of `Scheme::regenerate_graph` on the graph of a layer, over
all its descriptors in order. -/
def regenerate_edges (s : Scheme) (l : Layer) : Option CausalGraph :=
  regenerate_edges_from s l.name (List.range (s.graph l).vertices.length) (s.graph l)

/-- The function `Scheme::regenerate_graph` applied to the graph and the
ordering of a layer, which it is given by reference, and the name of the
layer: returns the flag and the state it leaves behind, or `none` when the
vertex loop read outside the estimation graph. -/
def regenerate_graph (s : Scheme) (l : Layer) : Option (Bool × Scheme) :=
  match regenerate_edges s l with
  | none => none
  | some g => some ((topological_sort g).1, (s.set_graph l g).set_ordering l (topological_sort g).2)

/-- Presence of the conman hook service, `HookService::Present`. -/
def HookService.Present (s : Scheme) (b : Nat) : Bool := ((s.tasks b).hook).isSome

/-- The first statements of `Scheme::add_block_to_graph` after its checks:
`graph.add_vertex(name)`, then the block and its hook service are stored in
the bundle `graph[name]`. -/
def attach_block (graph : CausalGraph) (new_block_name : String) (b : Nat) : CausalGraph :=
  (graph.add_vertex new_block_name).modify new_block_name
    fun v => { v with block := some b, hook := some b }

/-- The function `Scheme::add_block_to_graph` applied to the graph and the
ordering of a layer: returns the flag and the state it leaves behind.  When
the rebuild with the new vertex fails, the vertex is removed and the function
returns what the second rebuild returns. -/
def add_block_to_graph (s : Scheme) (new_block : Option Nat) (l : Layer) :
    Option (Bool × Scheme) :=
  match new_block with
  | none => some (false, s)
  | some b =>
    if !HookService.Present s b then some (false, s)
    else
      match regenerate_graph
          (s.set_graph l (attach_block (s.graph l) (s.tasks b).name b)) l with
      | none => none
      | some r =>
        if !r.1 then
          regenerate_graph (r.2.set_graph l ((r.2.graph l).remove_vertex (s.tasks b).name)) l
        else some (true, r.2)

/-- The overload `Scheme::add_block(RTT::TaskContext*)`; `none` when a rebuild
read outside the estimation graph. -/
def add_block (s : Scheme) (new_block : Option Nat) : Option (Bool × Scheme) :=
  match new_block with
  | none => some (false, s)
  | some b =>
    if !HookService.Present s b then some (false, s)
    else
      match add_block_to_graph s new_block Layer.estimation with
      | none => none
      | some e =>
        if !e.1 then some (false, e.2)
        else
          match add_block_to_graph e.2 new_block Layer.control with
          | none => none
          | some c =>
            if !c.1 then some (false, c.2)
            else some (true, { c.2 with block_names_ := c.2.block_names_ ++ [(s.tasks b).name] })

/-- The start calls in a log, in order. -/
def start_calls (cs : List Call) : List String :=
  cs.filterMap fun c => match c with
    | Call.start n => some n
    | Call.stop _ => none

/-- The stop calls in a log, in order. -/
def stop_calls (cs : List Call) : List String :=
  cs.filterMap fun c => match c with
    | Call.stop n => some n
    | Call.start _ => none

/-! ## Batch semantics in the words of the spec -/

/-- Strict batch semantics as the spec words it: the operation is applied name by
name, the batch stops at the first failure and returns false, and returns true
when no name failed. -/
def strict_batch (op : Scheme → String → Bool × Scheme) : List String → Scheme → Bool × Scheme
  | [], s => (true, s)
  | name :: rest, s =>
    if (op s name).1 then strict_batch op rest (op s name).2 else (false, (op s name).2)

/-- Non-strict batch semantics as the spec words it: the operation is applied to
every name in turn and the result is the logical AND of the single results. -/
def lenient_batch (op : Scheme → String → Bool × Scheme) : List String → Scheme → Bool × Scheme
  | [], s => (true, s)
  | name :: rest, s =>
    ((op s name).1 && (lenient_batch op rest (op s name).2).1,
      (lenient_batch op rest (op s name).2).2)

/-- The names of a list in order, each kept at its first occurrence outside `seen`. -/
def first_occurrences : List String → List String → List String
  | [], _ => []
  | n :: rest, seen =>
    if n ∈ seen then first_occurrences rest seen else n :: first_occurrences rest (n :: seen)

/-- Two states that differ at most in the lifecycle states of blocks and in the
call log. -/
def SameBlocks (s s' : Scheme) : Prop :=
  s'.peers = s.peers ∧ s'.block_conflicts_ = s.block_conflicts_
    ∧ s'.block_names_ = s.block_names_
    ∧ ∀ p, (s'.tasks p).name = (s.tasks p).name
        ∧ (s'.tasks p).startHook = (s.tasks p).startHook
        ∧ (s'.tasks p).stopHook = (s.tasks p).stopHook

/-! ## Example schemes -/

/-- The channel of a connection from the output `out1` of block `a` to the input
`port` of block `b`: its output end point is attached to the input of `b`, its
input end point to the output of `a`. -/
def channel_to (port : String) (a b : String) : ChannelDescriptor :=
  { source_port := some { name := port, owner := some b }
    sink_port := some { name := "out1", owner := some a } }

/-- The channel of a connection from the output `out1` of block `a` to the input
`in` of block `b`. -/
def channel (a b : String) : ChannelDescriptor := channel_to "in" a b

/-- A block in the manner of the test's `IOBlock`: it has the hook service and one
output port, registered on both layers and connected to the inputs of `sinks`. -/
def io_block (name : String) (state : TaskState) (stopHook : Bool) (sinks : List String) :
    TaskContext :=
  { name := name, state := state, startHook := true, stopHook := stopHook
    hook := some { output_ports :=
      [("estimation", { name := "out1", channels := sinks.map (channel name) }),
       ("control", { name := "out1", channels := sinks.map (channel name) })] } }

/-- What an address outside the examples holds: a component without the hook service. -/
def no_block : TaskContext :=
  { name := "", state := TaskState.Unconfigured, startHook := false, stopHook := false
    hook := none }

/-- The five blocks of the test fixture, stopped and connected in a ring
`iob1 → iob2 → iob3 → iob4 → iob5 → iob1`. -/
def ring_tasks : Nat → TaskContext
  | 1 => io_block "iob1" TaskState.Stopped true ["iob2"]
  | 2 => io_block "iob2" TaskState.Stopped true ["iob3"]
  | 3 => io_block "iob3" TaskState.Stopped true ["iob4"]
  | 4 => io_block "iob4" TaskState.Stopped true ["iob5"]
  | 5 => io_block "iob5" TaskState.Stopped true ["iob1"]
  | _ => no_block

/-- The scheme right after construction, over a host state. -/
def empty_scheme (tasks : Nat → TaskContext) (peers : List Nat) : Scheme :=
  { tasks := tasks, peers := peers }

/-- A sequence of `add_block` calls, successful or not; `none` when one of them
read outside the estimation graph. -/
def add_blocks : Scheme → List (Option Nat) → Option Scheme
  | s, [] => some s
  | s, b :: rest =>
    match add_block s b with
    | none => none
    | some r => add_blocks r.2 rest

/-- The ring fixture after `iob1` to `iob4` have been added; adding `iob5` would close
the cycle. -/
def ring_scheme : Scheme :=
  (add_blocks (empty_scheme ring_tasks [1, 2, 3, 4, 5])
    [some 1, some 2, some 3, some 4]).getD (empty_scheme ring_tasks [1, 2, 3, 4, 5])

/-- The five blocks of the test fixture, stopped and connected in a line
`iob1 → iob2 → iob3 → iob4 → iob5`. -/
def line_tasks : Nat → TaskContext
  | 1 => io_block "iob1" TaskState.Stopped true ["iob2"]
  | 2 => io_block "iob2" TaskState.Stopped true ["iob3"]
  | 3 => io_block "iob3" TaskState.Stopped true ["iob4"]
  | 4 => io_block "iob4" TaskState.Stopped true ["iob5"]
  | 5 => io_block "iob5" TaskState.Stopped true []
  | _ => no_block

/-- The line fixture after all five blocks have been added. -/
def line_scheme : Scheme :=
  (add_blocks (empty_scheme line_tasks [1, 2, 3, 4, 5])
    [some 1, some 2, some 3, some 4, some 5]).getD (empty_scheme line_tasks [1, 2, 3, 4, 5])

/-- The ring scheme with its four blocks running. -/
def running_ring_scheme : Scheme :=
  (enable_blocks ring_scheme ["iob1", "iob2", "iob3", "iob4"] true true).2

/-- Two blocks `A` (address 1) and `B` (address 2) that conflict with each other; `A`
is in the given state and its stop hook has the given outcome, `B` is stopped. -/
def exclusive_scheme (stateA : TaskState) (stopA : Bool) : Scheme :=
  { tasks := fun p => match p with
      | 1 => io_block "A" stateA stopA []
      | 2 => io_block "B" TaskState.Stopped true []
      | _ => no_block
    peers := [1, 2]
    block_names_ := ["A", "B"]
    block_conflicts_ := fun n => if n = "B" then [1] else if n = "A" then [2] else [] }

/-- A stopped block with the hook service whose one output port is registered on the
control layer only and connected to the inputs of `sinks`. -/
def control_block (name : String) (sinks : List String) : TaskContext :=
  { name := name, state := TaskState.Stopped, startHook := true, stopHook := true
    hook := some { output_ports :=
      [("control", { name := "out1", channels := sinks.map (channel name) })] } }

/-- Four blocks with connections on the control layer only: `iob1 → iob2 → iob1` and
`iob1 → iob3 → iob1`; `iob4` has no connection. -/
def feedback_tasks : Nat → TaskContext
  | 1 => control_block "iob1" ["iob2", "iob3"]
  | 2 => control_block "iob2" ["iob1"]
  | 3 => control_block "iob3" ["iob1"]
  | 4 => control_block "iob4" []
  | _ => no_block

/-- The feedback fixture after the given blocks have been passed to `add_block`, in
order. -/
def feedback_scheme (blocks : List (Option Nat)) : Scheme :=
  (add_blocks (empty_scheme feedback_tasks [1, 2, 3, 4]) blocks).getD
    (empty_scheme feedback_tasks [1, 2, 3, 4])

/-- A block in the manner of the test's `IOBlock` whose output is connected to the
input `in_ex` of the block `D`. -/
def feeder_block (name : String) : TaskContext :=
  { name := name, state := TaskState.Stopped, startHook := true, stopHook := true
    hook := some { output_ports :=
      [("estimation", { name := "out1", channels := [channel_to "in_ex" name "D"] }),
       ("control", { name := "out1", channels := [channel_to "in_ex" name "D"] })] } }

/-- Two blocks `A` (address 1) and `B` (address 2) that feed the same input `in_ex` of
the block `D` (address 3), which declared that input Exclusive, as the test's `IOBlock`
does. -/
def shared_input_tasks : Nat → TaskContext
  | 1 => feeder_block "A"
  | 2 => feeder_block "B"
  | 3 => { name := "D", state := TaskState.Stopped, startHook := true, stopHook := true
           hook := some { output_ports := [], exclusive_inputs := ["in_ex"] } }
  | _ => no_block

/-- The scheme built from the shared-input fixture by `add_block` of `A`, `B` and `D`,
in which `A` has then been enabled. -/
def shared_input_scheme : Scheme :=
  (enable_block
    ((add_blocks (empty_scheme shared_input_tasks [1, 2, 3]) [some 1, some 2, some 3]).getD
      (empty_scheme shared_input_tasks [1, 2, 3]))
    (some 1) false).2

/-- Modelled from the spec: the input ports the output ports of a block are connected
to (section 3); the input port of a channel is the port at its output end point. -/
def fed_inputs (t : TaskContext) : List PortInterface :=
  match t.hook with
  | none => []
  | some h => h.output_ports.flatMap fun p => p.2.channels.filterMap fun c => c.source_port

/-- Modelled from the spec: whether an input port is declared Exclusive by the block
that owns it, `inputExclusivity(port)` (section 4.1). -/
def is_exclusive (s : Scheme) (p : PortInterface) : Bool :=
  match p.owner with
  | none => false
  | some o =>
    match getPeer s o with
    | none => false
    | some c =>
      match (s.tasks c).hook with
      | none => false
      | some h => decide (p.name ∈ h.exclusive_inputs)

/-- Modelled from the spec: two blocks share an Exclusive input when an output of each
is connected to one and the same input port and that port is declared Exclusive
(sections 3 and 8). -/
def share_exclusive_input (s : Scheme) (a b : Nat) : Bool :=
  (fed_inputs (s.tasks a)).any fun p =>
    decide (p ∈ fed_inputs (s.tasks b)) && is_exclusive s p

/-! ## Registration by name -/

/-- The host's `connectPeers(peer)` as far as the scheme's own peer list goes:
it refuses a peer whose name the list already has, and adds the peer
otherwise. -/
def connectPeers (s : Scheme) (peer : Nat) : Bool × Scheme :=
  if hasPeer s (s.tasks peer).name then (false, s)
  else (true, { s with peers := s.peers ++ [peer] })

/-- The overload `Scheme::add_block(const std::string&)`.  Its last statement,
`return this->add_block(new_block->getName())`, passes a string and so calls
this same overload; `fuel` bounds the depth of these calls, and `none` says
that the bound was reached before any call returned. -/
def add_block_name : Nat → Scheme → String → Option (Bool × Scheme)
  | 0, _, _ => none
  | fuel + 1, s, block_name =>
    if !hasPeer s block_name then some (false, s)
    else
      match getPeer s block_name with
      | none => some (false, s)
      | some new_block =>
        let s1 := (connectPeers s new_block).2
        add_block_name fuel s1 (s1.tasks new_block).name

/-! ## Tick driver -/

/-- The four per-cycle entry points of a block. -/
inductive Hook where
  | read_hardware
  | compute_estimation
  | compute_control
  | write_hardware
deriving DecidableEq, Repr

/-- An invocation of an entry point on the vertex labelled `name`, with the
time stamp `now` of the cycle (the source passes it converted to seconds) and
the elapsed time it was given. -/
structure HookCall where
  hook : Hook
  name : String
  now : Int
  elapsed : Int
deriving DecidableEq, Repr

/-- The entry points `updateHook` invokes on a layer, in the order of the
calls: `read_hardware` then `compute_estimation` on the estimation layer,
`compute_control` then `write_hardware` on the control layer. -/
def Layer.hooks : Layer → List Hook
  | Layer.estimation => [Hook.read_hardware, Hook.compute_estimation]
  | Layer.control => [Hook.compute_control, Hook.write_hardware]

/-- The time stamp of a bundle that belongs to a layer:
`last_estimation_time` or `last_control_time`. -/
def Layer.last_time (l : Layer) (v : VertexProperties) : Int :=
  match l with
  | Layer.estimation => v.last_estimation_time
  | Layer.control => v.last_control_time

/-- The assignment `block_vertex.last_estimation_time = now`, respectively
`block_vertex.last_control_time = now`. -/
def Layer.set_last_time (l : Layer) (now : Int) (v : VertexProperties) : VertexProperties :=
  match l with
  | Layer.estimation => { v with last_estimation_time := now }
  | Layer.control => { v with last_control_time := now }

/-- Read access to the bundle of the vertex labelled `name`. -/
def CausalGraph.bundle (g : CausalGraph) (name : String) : Option VertexProperties :=
  (g.vertices.find? fun v => v.1 = name).map Prod.snd

/-- The value a signed 64-bit variable holds for the integer `x`: the time
type `nsecs` of the host is such a variable, and its arithmetic wraps around. -/
def nsecs (x : Int) : Int := (x + 2 ^ 63) % 2 ^ 64 - 2 ^ 63

/-- The subtraction `now - block_vertex.last_..._time` of the source, on
`nsecs`. -/
def nsecs_sub (a b : Int) : Int := nsecs (a - b)

/-- Modelled from the spec: the period of a block (section 3), which the source
reads through `block_vertex.get_period()`; the declaration is not part of the
sources. -/
def get_period (s : Scheme) (v : VertexProperties) : Int :=
  match v.hook with
  | none => 0
  | some h =>
    match (s.tasks h).hook with
    | none => 0
    | some hs => hs.period

/-- The test `block_vertex.block->getTaskState() == Running`. -/
def vertex_running (s : Scheme) (v : VertexProperties) : Bool :=
  match v.block with
  | none => false
  | some b => (s.tasks b).state = TaskState.Running

/-- The body of a loop of `Scheme::updateHook` for one entry of a layer's
serialization: when the block is Running and the 64-bit difference between
`now` and the time stamp of the bundle is at least the period, the two entry
points of the layer are invoked with that difference and the time stamp of the
bundle is set to `now`.  The entry points are the block authors' code;
they are taken not to change the lifecycle state of any block. -/
def update_vertex (s : Scheme) (now : Int) (l : Layer) (acc : CausalGraph × List HookCall)
    (name : String) : CausalGraph × List HookCall :=
  match acc.1.bundle name with
  | none => acc
  | some v =>
    if vertex_running s v = true ∧ nsecs_sub now (l.last_time v) ≥ get_period s v then
      (acc.1.modify name (l.set_last_time now),
        acc.2 ++ l.hooks.map fun h =>
          { hook := h, name := name, now := now, elapsed := nsecs_sub now (l.last_time v) })
    else acc

/-- A loop of `Scheme::updateHook`: the walk of a serialization from begin to
end. -/
def update_layer (s : Scheme) (now : Int) (l : Layer) (ordering : CausalOrdering)
    (graph : CausalGraph) (log : List HookCall) : CausalGraph × List HookCall :=
  ordering.foldl (update_vertex s now l) (graph, log)

/-- The function `Scheme::updateHook`, with the time `now` the time service
reports: the estimation serialization is walked first, then the control
serialization.  Returns the invocations made, in order, and the state left. -/
def updateHook (s : Scheme) (now : Int) : List HookCall × Scheme :=
  let e := update_layer s now Layer.estimation s.estimation_serialization_
    s.estimation_graph_ []
  let c := update_layer s now Layer.control s.control_serialization_ s.control_graph_ e.2
  (c.2, { s with
    last_update_time_ := now
    estimation_graph_ := e.1
    control_graph_ := c.1 })

/-- The running ring scheme after one `updateHook` at time 1. -/
def ticked_ring_scheme : Scheme := (updateHook running_ring_scheme 1).2

/-- Two blocks that conflict with each other: `A` (address 1) is running, `B`
(address 2) has not been configured. -/
def unconfigured_scheme : Scheme :=
  { tasks := fun p => match p with
      | 1 => io_block "A" TaskState.Running true []
      | 2 => io_block "B" TaskState.Unconfigured true []
      | _ => no_block
    peers := [1, 2]
    block_names_ := ["A", "B"]
    block_conflicts_ := fun n => if n = "B" then [1] else if n = "A" then [2] else [] }

/-- The condition under which `updateHook` runs a vertex: its block is Running
and the 64-bit difference between `now` and the time stamp of the bundle is at
least its period. -/
def due (s : Scheme) (now : Int) (l : Layer) (v : VertexProperties) : Prop :=
  vertex_running s v = true ∧ nsecs_sub now (l.last_time v) ≥ get_period s v

/-- A point of a walk at which the vertex `name`, whose bundle was `v0` when the
walk began, has not been met: its bundle has the time stamp of `v0` and the
log holds no invocation of the layer on it. -/
def Pending (l : Layer) (name : String) (v0 : VertexProperties)
    (acc : CausalGraph × List HookCall) : Prop :=
  ∃ v, acc.1.bundle name = some v ∧ v.block = v0.block ∧ v.hook = v0.hook
    ∧ l.last_time v = l.last_time v0
    ∧ ∀ c ∈ acc.2, c.name = name → c.hook ∉ l.hooks

/-- A point of a walk at which the vertex `name`, whose bundle was `v0` when the
walk began, has been met: when it was due its time stamp is `now` and both
entry points are in the log with the elapsed time of `v0`; when it was not,
its time stamp is that of `v0` and the log holds no invocation of the layer on
it. -/
def Settled (s : Scheme) (now : Int) (l : Layer) (name : String) (v0 : VertexProperties)
    (acc : CausalGraph × List HookCall) : Prop :=
  ∃ v, acc.1.bundle name = some v ∧ v.block = v0.block ∧ v.hook = v0.hook
    ∧ (due s now l v0 → l.last_time v = now
        ∧ ∀ h ∈ l.hooks,
            ({ hook := h, name := name, now := now,
                elapsed := nsecs_sub now (l.last_time v0) } : HookCall) ∈ acc.2)
    ∧ (¬ due s now l v0 → l.last_time v = l.last_time v0
        ∧ ∀ c ∈ acc.2, c.name = name → c.hook ∉ l.hooks)

theorem enable_blocks_loop_strict (force : Bool) (names : List String) (s : Scheme) :
    enable_blocks_loop true force names true s
      = strict_batch (fun s n => enable_block_name s n force) names s := by
  induction names generalizing s with
  | nil => rfl
  | cons n rest ih =>
    simp only [enable_blocks_loop, strict_batch]
    cases h : (enable_block_name s n force).1 <;> simp [ih]

theorem enable_blocks_loop_lenient (force : Bool) (names : List String) (success : Bool)
    (s : Scheme) :
    enable_blocks_loop false force names success s
      = (success && (lenient_batch (fun s n => enable_block_name s n force) names s).1,
          (lenient_batch (fun s n => enable_block_name s n force) names s).2) := by
  induction names generalizing s success with
  | nil => simp [enable_blocks_loop, lenient_batch]
  | cons n rest ih =>
    simp only [enable_blocks_loop, lenient_batch]
    simp [ih, Bool.and_assoc]

theorem disable_blocks_loop_strict (names : List String) (s : Scheme) :
    disable_blocks_loop true names true s = strict_batch disable_block_name names s := by
  induction names generalizing s with
  | nil => rfl
  | cons n rest ih =>
    simp only [disable_blocks_loop, strict_batch]
    cases h : (disable_block_name s n).1 <;> simp [ih]

theorem disable_blocks_loop_lenient (names : List String) (success : Bool) (s : Scheme) :
    disable_blocks_loop false names success s
      = (success && (lenient_batch disable_block_name names s).1,
          (lenient_batch disable_block_name names s).2) := by
  induction names generalizing s success with
  | nil => simp [disable_blocks_loop, lenient_batch]
  | cons n rest ih =>
    simp only [disable_blocks_loop, lenient_batch]
    simp [ih, Bool.and_assoc]

theorem enable_block_conflicts_noforce (l : List Nat) (s : Scheme) :
    (enable_block_conflicts false l s).2 = s
    ∧ ((∃ c ∈ l, (s.tasks c).state = TaskState.Running) →
        (enable_block_conflicts false l s).1 = false) := by
  induction l with
  | nil => simp [enable_block_conflicts]
  | cons c rest ih =>
    by_cases h : (s.tasks c).state = TaskState.Running
    · simp [enable_block_conflicts, h]
    · simp only [enable_block_conflicts, h, if_false]
      refine ⟨ih.1, ?_⟩
      rintro ⟨x, hx, hr⟩
      rcases List.mem_cons.1 hx with rfl | hx
      · exact absurd hr h
      · exact ih.2 ⟨x, hx, hr⟩

theorem SameBlocks.refl (s : Scheme) : SameBlocks s s :=
  ⟨rfl, rfl, rfl, fun _ => ⟨rfl, rfl, rfl⟩⟩

theorem SameBlocks.trans {s1 s2 s3 : Scheme} (h1 : SameBlocks s1 s2) (h2 : SameBlocks s2 s3) :
    SameBlocks s1 s3 := by
  obtain ⟨a1, b1, c1, d1⟩ := h1
  obtain ⟨a2, b2, c2, d2⟩ := h2
  refine ⟨a2.trans a1, b2.trans b1, c2.trans c1, fun p => ?_⟩
  obtain ⟨x1, y1, z1⟩ := d1 p
  obtain ⟨x2, y2, z2⟩ := d2 p
  exact ⟨x2.trans x1, y2.trans y1, z2.trans z1⟩

theorem getPeer_sameBlocks {s s' : Scheme} (h : SameBlocks s s') (n : String) :
    getPeer s' n = getPeer s n := by
  obtain ⟨hp, -, -, ht⟩ := h
  unfold getPeer
  rw [hp]
  congr 1
  funext p
  rw [(ht p).1]

theorem getPeer_name {s : Scheme} {n : String} {p : Nat} (h : getPeer s n = some p) :
    (s.tasks p).name = n := by
  unfold getPeer at h
  have := List.find?_some h
  simpa using this

theorem stop_sameBlocks (s : Scheme) (b : Nat) : SameBlocks s (stop s b).2 := by
  by_cases h : (s.tasks b).state = TaskState.Running ∧ (s.tasks b).stopHook = true
  · refine ⟨?_, ?_, ?_, fun p => ?_⟩
    · simp [stop, h]
    · simp [stop, h]
    · simp [stop, h]
    · by_cases hp : p = b
      · subst hp; simp [stop, h]
      · simp [stop, h, Function.update_noteq hp]
  · refine ⟨?_, ?_, ?_, fun p => ?_⟩ <;> simp [stop, h]

theorem stop_other (s : Scheme) (b p : Nat) (hp : p ≠ b) :
    (stop s b).2.tasks p = s.tasks p := by
  by_cases h : (s.tasks b).state = TaskState.Running ∧ (s.tasks b).stopHook = true
  · simp [stop, h, Function.update_noteq hp]
  · simp [stop, h]

theorem stop_running (s : Scheme) (b : Nat) (hr : (s.tasks b).state = TaskState.Running)
    (hs : (s.tasks b).stopHook = true) :
    (stop s b).1 = true ∧ ((stop s b).2.tasks b).state = TaskState.Stopped := by
  simp [stop, hr, hs]

theorem stop_log (s : Scheme) (b : Nat) :
    (stop s b).2.calls = s.calls ++ [Call.stop (s.tasks b).name] := by
  by_cases h : (s.tasks b).state = TaskState.Running ∧ (s.tasks b).stopHook = true
  · simp [stop, h]
  · simp [stop, h]

theorem start_sameBlocks (s : Scheme) (b : Nat) : SameBlocks s (start s b).2 := by
  by_cases h : (s.tasks b).state = TaskState.Stopped ∧ (s.tasks b).startHook = true
  · refine ⟨?_, ?_, ?_, fun p => ?_⟩
    · simp [start, h]
    · simp [start, h]
    · simp [start, h]
    · by_cases hp : p = b
      · subst hp; simp [start, h]
      · simp [start, h, Function.update_noteq hp]
  · refine ⟨?_, ?_, ?_, fun p => ?_⟩ <;> simp [start, h]

theorem start_other (s : Scheme) (b p : Nat) (hp : p ≠ b) :
    (start s b).2.tasks p = s.tasks p := by
  by_cases h : (s.tasks b).state = TaskState.Stopped ∧ (s.tasks b).startHook = true
  · simp [start, h, Function.update_noteq hp]
  · simp [start, h]

theorem start_stopped (s : Scheme) (b : Nat) (hr : (s.tasks b).state = TaskState.Stopped)
    (hs : (s.tasks b).startHook = true) :
    (start s b).1 = true ∧ ((start s b).2.tasks b).state = TaskState.Running := by
  simp [start, hr, hs]

theorem start_log (s : Scheme) (b : Nat) :
    (start s b).2.calls = s.calls ++ [Call.start (s.tasks b).name] := by
  by_cases h : (s.tasks b).state = TaskState.Stopped ∧ (s.tasks b).startHook = true
  · simp [start, h]
  · simp [start, h]

theorem start_calls_append (l1 l2 : List Call) :
    start_calls (l1 ++ l2) = start_calls l1 ++ start_calls l2 := by
  simp [start_calls, List.filterMap_append]

theorem stop_calls_append (l1 l2 : List Call) :
    stop_calls (l1 ++ l2) = stop_calls l1 ++ stop_calls l2 := by
  simp [stop_calls, List.filterMap_append]

/-- What `disable_block` does to a block it is given. -/
theorem disable_block_effect (s : Scheme) (b : Nat) :
    SameBlocks s (disable_block s (some b)).2
    ∧ (∀ p, p ≠ b → (disable_block s (some b)).2.tasks p = s.tasks p)
    ∧ ((s.tasks b).state ≠ TaskState.Running → disable_block s (some b) = (true, s))
    ∧ ((s.tasks b).state = TaskState.Running → (s.tasks b).stopHook = true →
        (disable_block s (some b)).1 = true
        ∧ ((disable_block s (some b)).2.tasks b).state = TaskState.Stopped
        ∧ (disable_block s (some b)).2.calls = s.calls ++ [Call.stop (s.tasks b).name])
    ∧ start_calls (disable_block s (some b)).2.calls = start_calls s.calls := by
  by_cases hr : (s.tasks b).state = TaskState.Running
  · have h2 : (disable_block s (some b)).2 = (stop s b).2 := by
      simp only [disable_block, isRunning, hr, decide_True, if_true]
      split <;> rfl
    have h1 : (disable_block s (some b)).1 = (stop s b).1 := by
      simp only [disable_block, isRunning, hr, decide_True, if_true]
      cases (stop s b).1 <;> rfl
    rw [h2, h1]
    refine ⟨stop_sameBlocks s b, fun p hp => stop_other s b p hp, fun h => absurd hr h, ?_, ?_⟩
    · intro _ hs
      exact ⟨(stop_running s b hr hs).1, (stop_running s b hr hs).2, stop_log s b⟩
    · rw [stop_log, start_calls_append]; simp [start_calls]
  · have h : disable_block s (some b) = (true, s) := by
      simp [disable_block, isRunning, hr]
    rw [h]
    exact ⟨SameBlocks.refl s, fun _ _ => rfl, fun _ => rfl, fun h => absurd h hr, rfl⟩

/-- What the conflict loop of a forced enable does when every conflicting block can be
stopped: it goes through, and exactly the running blocks of the list become Stopped. -/
theorem enable_block_conflicts_force (l : List Nat) (s : Scheme)
    (hstop : ∀ x ∈ l, (s.tasks x).stopHook = true) :
    (enable_block_conflicts true l s).1 = true
    ∧ SameBlocks s (enable_block_conflicts true l s).2
    ∧ (∀ p, ((enable_block_conflicts true l s).2.tasks p).state
        = if p ∈ l ∧ (s.tasks p).state = TaskState.Running then TaskState.Stopped
          else (s.tasks p).state)
    ∧ start_calls (enable_block_conflicts true l s).2.calls = start_calls s.calls := by
  induction l generalizing s with
  | nil => exact ⟨rfl, SameBlocks.refl s, fun p => by simp [enable_block_conflicts], rfl⟩
  | cons c rest ih =>
    obtain ⟨hsame, hother, -, hrun, hlog⟩ := disable_block_effect s c
    by_cases hr : (s.tasks c).state = TaskState.Running
    · obtain ⟨h1, h2, -⟩ := hrun hr (hstop c (List.mem_cons_self _ _))
      have hstop1 : ∀ x ∈ rest, ((disable_block s (some c)).2.tasks x).stopHook = true := by
        intro x hx
        rw [(hsame.2.2.2 x).2.2]
        exact hstop x (List.mem_cons_of_mem _ hx)
      obtain ⟨i1, i2, i3, i4⟩ := ih (disable_block s (some c)).2 hstop1
      have e : enable_block_conflicts true (c :: rest) s
          = enable_block_conflicts true rest (disable_block s (some c)).2 := by
        simp [enable_block_conflicts, hr, h1]
      rw [e]
      refine ⟨i1, hsame.trans i2, fun p => ?_, i4.trans hlog⟩
      rw [i3 p]
      by_cases hp : p = c
      · subst hp
        simp [h2, hr]
      · rw [hother p hp]
        simp [hp]
    · have hstop1 : ∀ x ∈ rest, (s.tasks x).stopHook = true :=
        fun x hx => hstop x (List.mem_cons_of_mem _ hx)
      obtain ⟨i1, i2, i3, i4⟩ := ih s hstop1
      have e : enable_block_conflicts true (c :: rest) s = enable_block_conflicts true rest s := by
        simp [enable_block_conflicts, hr]
      rw [e]
      refine ⟨i1, i2, fun p => ?_, i4⟩
      rw [i3 p]
      by_cases hp : p = c
      · subst hp
        simp [hr]
      · simp [hp]

/-- What a forced enable does to a stopped block that starts, when every block of its
conflict list can be stopped. -/
theorem enable_block_force_effect (s : Scheme) (b : Nat)
    (hb : (s.tasks b).state = TaskState.Stopped) (hs : (s.tasks b).startHook = true)
    (hstop : ∀ x ∈ s.block_conflicts_ (s.tasks b).name, (s.tasks x).stopHook = true) :
    (enable_block s (some b) true).1 = true
    ∧ SameBlocks s (enable_block s (some b) true).2
    ∧ ((enable_block s (some b) true).2.tasks b).state = TaskState.Running
    ∧ (∀ p, p ≠ b → ((enable_block s (some b) true).2.tasks p).state
        = if p ∈ s.block_conflicts_ (s.tasks b).name ∧ (s.tasks p).state = TaskState.Running
          then TaskState.Stopped else (s.tasks p).state)
    ∧ start_calls (enable_block s (some b) true).2.calls
        = start_calls s.calls ++ [(s.tasks b).name] := by
  obtain ⟨c1, c2, c3, c4⟩ :=
    enable_block_conflicts_force (s.block_conflicts_ (s.tasks b).name) s hstop
  generalize hc : enable_block_conflicts true (s.block_conflicts_ (s.tasks b).name) s = c
    at c1 c2 c3 c4
  have hb1 : (c.2.tasks b).state = TaskState.Stopped := by
    rw [c3 b]; simp [hb]
  have hs1 : (c.2.tasks b).startHook = true := by
    rw [(c2.2.2.2 b).2.1]; exact hs
  obtain ⟨t1, t2⟩ := start_stopped c.2 b hb1 hs1
  have e : enable_block s (some b) true = (true, (start c.2 b).2) := by
    simp [enable_block, hc, c1, isConfigured, hb1, t1]
  rw [e]
  refine ⟨rfl, c2.trans (start_sameBlocks c.2 b), t2, fun p hp => ?_, ?_⟩
  · show ((start c.2 b).2.tasks p).state = _
    rw [start_other c.2 b p hp, c3 p]
  · show start_calls (start c.2 b).2.calls = _
    rw [start_log, start_calls_append, c4, (c2.2.2.2 b).1]
    simp [start_calls]

theorem first_occurrences_nodup (names seen : List String) (hn : names.Nodup)
    (hd : ∀ n ∈ names, n ∉ seen) : first_occurrences names seen = names := by
  induction names generalizing seen with
  | nil => rfl
  | cons n rest ih =>
    have h1 : n ∉ seen := hd n (List.mem_cons_self _ _)
    have hn' := List.nodup_cons.1 hn
    simp only [first_occurrences, h1, if_false]
    rw [ih (n :: seen) hn'.2]
    intro m hm
    simp only [List.mem_cons, not_or]
    refine ⟨?_, hd m (List.mem_cons_of_mem _ hm)⟩
    rintro rfl
    exact hn'.1 hm

theorem enable_blocks_loop_force_trace (strict : Bool) (names : List String) (s : Scheme)
    (hnodup : names.Nodup)
    (hres : ∀ n ∈ names, ∃ p, getPeer s n = some p
      ∧ (s.tasks p).state = TaskState.Stopped ∧ (s.tasks p).startHook = true)
    (hstop : ∀ n ∈ names, ∀ x ∈ s.block_conflicts_ n, (s.tasks x).stopHook = true) :
    (enable_blocks_loop strict true names true s).1 = true
    ∧ start_calls (enable_blocks_loop strict true names true s).2.calls
        = start_calls s.calls ++ names := by
  induction names generalizing s with
  | nil => simp [enable_blocks_loop]
  | cons n rest ih =>
    obtain ⟨p, hp, hst, hsh⟩ := hres n (List.mem_cons_self _ _)
    have hname := getPeer_name hp
    have hnd := List.nodup_cons.1 hnodup
    have hstop_p : ∀ x ∈ s.block_conflicts_ (s.tasks p).name, (s.tasks x).stopHook = true := by
      rw [hname]; exact hstop n (List.mem_cons_self _ _)
    obtain ⟨e1, e2, -, e4, e5⟩ := enable_block_force_effect s p hst hsh hstop_p
    have er : enable_block_name s n true = enable_block s (some p) true := by
      simp [enable_block_name, hp]
    have step : enable_blocks_loop strict true (n :: rest) true s
        = enable_blocks_loop strict true rest true (enable_block s (some p) true).2 := by
      simp [enable_blocks_loop, er, e1]
    rw [step]
    have hres1 : ∀ m ∈ rest, ∃ q, getPeer (enable_block s (some p) true).2 m = some q
        ∧ ((enable_block s (some p) true).2.tasks q).state = TaskState.Stopped
        ∧ ((enable_block s (some p) true).2.tasks q).startHook = true := by
      intro m hm
      obtain ⟨q, hq, hqs, hqh⟩ := hres m (List.mem_cons_of_mem _ hm)
      have hqp : q ≠ p := by
        rintro rfl
        have := getPeer_name hq
        rw [hname] at this
        exact hnd.1 (this ▸ hm)
      refine ⟨q, (getPeer_sameBlocks e2 m).trans hq, ?_, ?_⟩
      · rw [e4 q hqp]; simp [hqs]
      · rw [(e2.2.2.2 q).2.1]; exact hqh
    have hstop1 : ∀ m ∈ rest, ∀ x ∈ (enable_block s (some p) true).2.block_conflicts_ m,
        ((enable_block s (some p) true).2.tasks x).stopHook = true := by
      intro m hm x hx
      rw [e2.2.1] at hx
      rw [(e2.2.2.2 x).2.2]
      exact hstop m (List.mem_cons_of_mem _ hm) x hx
    obtain ⟨i1, i2⟩ := ih (enable_block s (some p) true).2 hnd.2 hres1 hstop1
    refine ⟨i1, ?_⟩
    rw [i2, e5, hname]
    simp

theorem disable_blocks_loop_trace (strict : Bool) (names seen : List String) (s : Scheme)
    (hres : ∀ n ∈ names, ∃ p, getPeer s n = some p ∧ (s.tasks p).stopHook = true
      ∧ ((s.tasks p).state = TaskState.Running ↔ n ∉ seen)) :
    (disable_blocks_loop strict names true s).1 = true
    ∧ stop_calls (disable_blocks_loop strict names true s).2.calls
        = stop_calls s.calls ++ first_occurrences names seen := by
  induction names generalizing s seen with
  | nil => simp [disable_blocks_loop, first_occurrences]
  | cons n rest ih =>
    obtain ⟨p, hp, hsh, hiff⟩ := hres n (List.mem_cons_self _ _)
    have hname := getPeer_name hp
    obtain ⟨d1, d2, d3, d4, -⟩ := disable_block_effect s p
    have er : disable_block_name s n = disable_block s (some p) := by
      simp [disable_block_name, hp]
    by_cases hseen : n ∈ seen
    · have hnr : (s.tasks p).state ≠ TaskState.Running := fun h => (hiff.1 h) hseen
      have step : disable_blocks_loop strict (n :: rest) true s
          = disable_blocks_loop strict rest true s := by
        simp [disable_blocks_loop, er, d3 hnr]
      rw [step]
      simp only [first_occurrences, hseen, if_true]
      exact ih seen s fun m hm => hres m (List.mem_cons_of_mem _ hm)
    · have hr : (s.tasks p).state = TaskState.Running := hiff.2 hseen
      obtain ⟨f1, f2, f3⟩ := d4 hr hsh
      have step : disable_blocks_loop strict (n :: rest) true s
          = disable_blocks_loop strict rest true (disable_block s (some p)).2 := by
        simp [disable_blocks_loop, er, f1]
      rw [step]
      simp only [first_occurrences, hseen, if_false]
      have hres1 : ∀ m ∈ rest, ∃ q, getPeer (disable_block s (some p)).2 m = some q
          ∧ ((disable_block s (some p)).2.tasks q).stopHook = true
          ∧ (((disable_block s (some p)).2.tasks q).state = TaskState.Running
              ↔ m ∉ n :: seen) := by
        intro m hm
        obtain ⟨q, hq, hqh, hqiff⟩ := hres m (List.mem_cons_of_mem _ hm)
        refine ⟨q, (getPeer_sameBlocks d1 m).trans hq, ?_, ?_⟩
        · rw [(d1.2.2.2 q).2.2]; exact hqh
        · by_cases hqp : q = p
          · subst hqp
            have hmn : m = n := (getPeer_name hq).symm.trans hname
            simp [f2, hmn]
          · have hmn : m ≠ n := by
              rintro rfl
              exact hqp (Option.some.inj (hq.symm.trans hp))
            rw [d2 q hqp, hqiff]
            simp [hmn]
      obtain ⟨i1, i2⟩ := ih (n :: seen) (disable_block s (some p)).2 hres1
      refine ⟨i1, ?_⟩
      rw [i2, f3, stop_calls_append, hname]
      simp [stop_calls]

/-- An enable without force changes at most the block it is given. -/
theorem enable_block_noforce_frame (s : Scheme) (block : Option Nat) :
    SameBlocks s (enable_block s block false).2
    ∧ ∀ p, block ≠ some p → (enable_block s block false).2.tasks p = s.tasks p := by
  cases block with
  | none => exact ⟨SameBlocks.refl s, fun _ _ => rfl⟩
  | some b =>
    have h := (enable_block_conflicts_noforce (s.block_conflicts_ (s.tasks b).name) s).1
    have e : (enable_block s (some b) false).2 = s
        ∨ (enable_block s (some b) false).2 = (start s b).2 := by
      simp only [enable_block, h]
      split
      · exact Or.inl rfl
      · split
        · exact Or.inl rfl
        · split <;> exact Or.inr rfl
    rcases e with e | e
    · rw [e]; exact ⟨SameBlocks.refl s, fun _ _ => rfl⟩
    · rw [e]
      refine ⟨start_sameBlocks s b, fun p hp => start_other s b p ?_⟩
      rintro rfl
      exact hp rfl

/-- A batch enable without force leaves alone every block whose name is not in the list. -/
theorem enable_blocks_loop_noforce_frame (strict : Bool) (names : List String) (success : Bool)
    (s : Scheme) :
    SameBlocks s (enable_blocks_loop strict false names success s).2
    ∧ ∀ p, (s.tasks p).name ∉ names →
        (enable_blocks_loop strict false names success s).2.tasks p = s.tasks p := by
  induction names generalizing s success with
  | nil => exact ⟨SameBlocks.refl s, fun _ _ => rfl⟩
  | cons n rest ih =>
    obtain ⟨f1, f2⟩ := enable_block_noforce_frame s (getPeer s n)
    have hp1 : ∀ p, (s.tasks p).name ∉ n :: rest →
        (enable_block_name s n false).2.tasks p = s.tasks p := by
      intro p hp
      apply f2
      intro hg
      exact hp (by rw [getPeer_name hg]; exact List.mem_cons_self _ _)
    simp only [enable_blocks_loop]
    split
    · exact ⟨f1, hp1⟩
    · obtain ⟨i1, i2⟩ := ih (success && (enable_block_name s n false).1)
        (enable_block_name s n false).2
      refine ⟨f1.trans i1, fun p hp => ?_⟩
      have hn : ((enable_block_name s n false).2.tasks p).name ∉ rest := by
        have : ((enable_block_name s n false).2.tasks p).name = (s.tasks p).name :=
          (f1.2.2.2 p).1
        rw [this]
        exact fun h => hp (List.mem_cons_of_mem _ h)
      rw [i2 p hn, hp1 p hp]

/-- A batch disable of names that resolve to blocks whose stop succeeds goes through and
leaves none of them Running; it starts nothing. -/
theorem disable_blocks_loop_all (strict : Bool) (names : List String) (s : Scheme)
    (hres : ∀ n ∈ names, ∃ p, getPeer s n = some p ∧ (s.tasks p).stopHook = true) :
    (disable_blocks_loop strict names true s).1 = true
    ∧ SameBlocks s (disable_blocks_loop strict names true s).2
    ∧ (∀ p, ((disable_blocks_loop strict names true s).2.tasks p).state = TaskState.Running →
        (s.tasks p).state = TaskState.Running)
    ∧ (∀ n ∈ names, ∀ p, getPeer s n = some p →
        ((disable_blocks_loop strict names true s).2.tasks p).state ≠ TaskState.Running) := by
  induction names generalizing s with
  | nil => exact ⟨rfl, SameBlocks.refl s, fun _ h => h, fun _ h => absurd h (List.not_mem_nil _)⟩
  | cons n rest ih =>
    obtain ⟨p, hp, hsh⟩ := hres n (List.mem_cons_self _ _)
    obtain ⟨d1, d2, d3, d4, -⟩ := disable_block_effect s p
    have er : disable_block_name s n = disable_block s (some p) := by
      simp [disable_block_name, hp]
    have hok : (disable_block s (some p)).1 = true
        ∧ ((disable_block s (some p)).2.tasks p).state ≠ TaskState.Running := by
      by_cases hr : (s.tasks p).state = TaskState.Running
      · obtain ⟨f1, f2, -⟩ := d4 hr hsh
        exact ⟨f1, by rw [f2]; decide⟩
      · rw [d3 hr]; exact ⟨rfl, hr⟩
    have step : disable_blocks_loop strict (n :: rest) true s
        = disable_blocks_loop strict rest true (disable_block s (some p)).2 := by
      simp [disable_blocks_loop, er, hok.1]
    rw [step]
    have hres1 : ∀ m ∈ rest, ∃ q, getPeer (disable_block s (some p)).2 m = some q
        ∧ ((disable_block s (some p)).2.tasks q).stopHook = true := by
      intro m hm
      obtain ⟨q, hq, hqh⟩ := hres m (List.mem_cons_of_mem _ hm)
      exact ⟨q, (getPeer_sameBlocks d1 m).trans hq, by rw [(d1.2.2.2 q).2.2]; exact hqh⟩
    obtain ⟨i1, i2, i3, i4⟩ := ih (disable_block s (some p)).2 hres1
    have mono : ∀ q, ((disable_block s (some p)).2.tasks q).state = TaskState.Running →
        (s.tasks q).state = TaskState.Running := by
      intro q hq
      by_cases hqp : q = p
      · subst hqp; exact absurd hq hok.2
      · rw [d2 q hqp] at hq; exact hq
    refine ⟨i1, d1.trans i2, fun q hq => mono q (i3 q hq), fun m hm q hq => ?_⟩
    rcases List.mem_cons.1 hm with rfl | hm
    · have hqp : q = p := Option.some.inj (hq.symm.trans hp)
      subst hqp
      exact fun h => hok.2 (i3 q h)
    · exact i4 m hm q ((getPeer_sameBlocks d1 m).trans hq)

/-! ## Lemmas on the topological sort -/

theorem out_edges_count (l : List (String × String × EdgeProperties)) (v : String)
    (gray : List String) (hv : v ∉ gray) :
    (l.filter fun e => e.1 ∉ gray).length
      = (l.filter fun e => e.1 = v).length + (l.filter fun e => e.1 ∉ v :: gray).length := by
  induction l with
  | nil => rfl
  | cons e rest ih =>
    by_cases h1 : e.1 = v
    · have h2 : e.1 ∉ gray := h1 ▸ hv
      simp [List.filter_cons, h1, hv] at ih ⊢
      omega
    · by_cases h2 : e.1 ∈ gray
      · simp [List.filter_cons, h1, h2] at ih ⊢
        omega
      · simp [List.filter_cons, h1, h2] at ih ⊢
        omega

/-- The search never runs out of fuel when it is given one unit for every target of its
list and one for every edge that leaves a vertex off the search path. -/
theorem dfs_visit_fuel (g : CausalGraph) (fuel : Nat) (targets gray out : List String)
    (h : targets.length + (g.edges.filter fun e => e.1 ∉ gray).length ≤ fuel) (o : List String) :
    dfs_visit g fuel targets gray out ≠ SortResult.out_of_fuel o := by
  induction fuel generalizing targets gray out o with
  | zero =>
    cases targets with
    | nil => simp [dfs_visit]
    | cons v rest => simp at h
  | succ fuel ih =>
    cases targets with
    | nil => simp [dfs_visit]
    | cons v rest =>
      simp only [List.length_cons] at h
      by_cases hg : v ∈ gray
      · simp [dfs_visit, hg]
      · by_cases ho : v ∈ out
        · simp only [dfs_visit, hg, ho, if_true, if_false]
          exact ih rest gray out (by omega) o
        · have hcount := out_edges_count g.edges v gray hg
          have hchild : (g.out_targets v).length
              + (g.edges.filter fun e => e.1 ∉ v :: gray).length ≤ fuel := by
            simp only [CausalGraph.out_targets, List.length_map]
            omega
          have hc := ih (g.out_targets v) (v :: gray) out hchild
          simp only [dfs_visit, hg, ho, if_false]
          cases hr : dfs_visit g fuel (g.out_targets v) (v :: gray) out with
          | done out1 => exact ih rest gray (out1 ++ [v]) (by omega) o
          | not_a_dag out1 => simp
          | out_of_fuel out1 => exact absurd hr (hc out1)

/-- The fuel `topological_sort` gives the search is enough: its flag is false only when
the search met a back edge. -/
theorem topological_sort_fuel (g : CausalGraph) (o : List String) :
    dfs_visit g (sort_fuel g) g.names [] [] ≠ SortResult.out_of_fuel o := by
  apply dfs_visit_fuel
  have : (g.edges.filter fun e => e.1 ∉ ([] : List String)).length ≤ g.edges.length :=
    List.length_filter_le _ _
  simp only [CausalGraph.names, List.length_map, sort_fuel]
  omega

/-! ## Claims on the runtime controller -/

/-- C1 (counterexample): in the ring scheme every block is configured, stopped and
starts, and both lists are permutations of all block names; `enable_blocks` with
strict and force returns true for both and starts the blocks in the order of the list
it was given, so the two start sequences differ and the second is neither the control
serialization nor its reverse.  With two conflicting blocks of which the first cannot
be stopped, the batch returns false. -/
theorem enable_blocks_order_counterexample :
    ring_scheme.block_names_ = ["iob1", "iob2", "iob3", "iob4"]
    ∧ ring_scheme.control_serialization_ = ["iob1", "iob2", "iob3", "iob4"]
    ∧ (enable_blocks ring_scheme ["iob1", "iob2", "iob3", "iob4"] true true).1 = true
    ∧ start_calls (enable_blocks ring_scheme ["iob1", "iob2", "iob3", "iob4"] true true).2.calls
        = ["iob1", "iob2", "iob3", "iob4"]
    ∧ (enable_blocks ring_scheme ["iob3", "iob1", "iob4", "iob2"] true true).1 = true
    ∧ start_calls (enable_blocks ring_scheme ["iob3", "iob1", "iob4", "iob2"] true true).2.calls
        = ["iob3", "iob1", "iob4", "iob2"]
    ∧ (enable_blocks (exclusive_scheme TaskState.Stopped false) ["A", "B"] true true).1
        = false := by
  decide

/-- C1 (amended): for every list of distinct names that resolve to configured, stopped
blocks whose start succeeds, when the blocks in the conflict lists of these names can
be stopped, `enable_blocks(names, strict, force=true)` returns true and calls `start()`
on the blocks in the order of `names`: the list is not reordered. -/
theorem enable_blocks_starts_in_input_order (s : Scheme) (names : List String) (strict : Bool)
    (hnodup : names.Nodup)
    (hres : ∀ n ∈ names, ∃ p, getPeer s n = some p
      ∧ (s.tasks p).state = TaskState.Stopped ∧ (s.tasks p).startHook = true)
    (hstop : ∀ n ∈ names, ∀ x ∈ s.block_conflicts_ n, (s.tasks x).stopHook = true) :
    (enable_blocks s names strict true).1 = true
    ∧ start_calls (enable_blocks s names strict true).2.calls = start_calls s.calls ++ names :=
  enable_blocks_loop_force_trace strict names s hnodup hres hstop

/-- C1 (witness): the ring scheme and a scrambled list of its block names. -/
theorem enable_blocks_starts_in_input_order_witness :
    (enable_blocks ring_scheme ["iob3", "iob1", "iob4", "iob2"] true true).1 = true
    ∧ start_calls (enable_blocks ring_scheme ["iob3", "iob1", "iob4", "iob2"] true true).2.calls
        = start_calls ring_scheme.calls ++ ["iob3", "iob1", "iob4", "iob2"] :=
  enable_blocks_starts_in_input_order ring_scheme ["iob3", "iob1", "iob4", "iob2"] true
    (by decide)
    (by
      intro n hn
      simp only [List.mem_cons, List.mem_singleton, List.not_mem_nil, or_false] at hn
      rcases hn with rfl | rfl | rfl | rfl
      · exact ⟨3, by decide⟩
      · exact ⟨1, by decide⟩
      · exact ⟨4, by decide⟩
      · exact ⟨2, by decide⟩)
    (fun _ _ x hx => absurd hx (List.not_mem_nil x))

/-- C2 (counterexample): the four blocks of the ring scheme are running and their stop
succeeds; `disable_blocks` stops them in the order of the list it was given, forward
for the forward list and scrambled for the scrambled one, so the stop sequence depends
on the input order and is not the reverse of the control serialization restricted to
the names. -/
theorem disable_blocks_order_counterexample :
    running_ring_scheme.control_serialization_ = ["iob1", "iob2", "iob3", "iob4"]
    ∧ stop_calls (disable_blocks running_ring_scheme ["iob4", "iob3", "iob2", "iob1"] true).2.calls
        = ["iob4", "iob3", "iob2", "iob1"]
    ∧ stop_calls (disable_blocks running_ring_scheme ["iob1", "iob2", "iob3", "iob4"] true).2.calls
        = ["iob1", "iob2", "iob3", "iob4"]
    ∧ stop_calls (disable_blocks running_ring_scheme ["iob3", "iob1", "iob4", "iob2"] true).2.calls
        = ["iob3", "iob1", "iob4", "iob2"] := by
  decide

/-- C2 (amended): for every list of names that resolve to running blocks whose stop
succeeds, `disable_blocks(names, strict)` returns true and calls `stop()` on the blocks
in the order of the input list, a repeated name being stopped at its first occurrence
only; for a list of distinct names the stop sequence is the list itself. -/
theorem disable_blocks_stops_in_input_order (s : Scheme) (names : List String) (strict : Bool)
    (hres : ∀ n ∈ names, ∃ p, getPeer s n = some p
      ∧ (s.tasks p).state = TaskState.Running ∧ (s.tasks p).stopHook = true) :
    (disable_blocks s names strict).1 = true
    ∧ stop_calls (disable_blocks s names strict).2.calls
        = stop_calls s.calls ++ first_occurrences names []
    ∧ (names.Nodup →
        stop_calls (disable_blocks s names strict).2.calls = stop_calls s.calls ++ names) := by
  have h := disable_blocks_loop_trace strict names [] s (fun n hn => by
    obtain ⟨p, hp, hr, hs⟩ := hres n hn
    exact ⟨p, hp, hs, by simp [hr]⟩)
  refine ⟨h.1, h.2, fun hn => ?_⟩
  have e := h.2
  rw [first_occurrences_nodup names [] hn (fun _ _ => List.not_mem_nil _)] at e
  exact e

/-- C2 (witness): the running ring scheme and a scrambled list with a repeated name. -/
theorem disable_blocks_stops_in_input_order_witness :
    (disable_blocks running_ring_scheme ["iob3", "iob1", "iob3", "iob2"] false).1 = true
    ∧ stop_calls (disable_blocks running_ring_scheme ["iob3", "iob1", "iob3", "iob2"] false).2.calls
        = stop_calls running_ring_scheme.calls ++ ["iob3", "iob1", "iob2"] :=
  have h := disable_blocks_stops_in_input_order running_ring_scheme
    ["iob3", "iob1", "iob3", "iob2"] false
    (by
      intro n hn
      simp only [List.mem_cons, List.mem_singleton, List.not_mem_nil, or_false] at hn
      rcases hn with rfl | rfl | rfl | rfl
      · exact ⟨3, by decide⟩
      · exact ⟨1, by decide⟩
      · exact ⟨3, by decide⟩
      · exact ⟨2, by decide⟩)
  ⟨h.1, h.2.1⟩

/-- C3 (the code at the failing input): the body of `switch_blocks` is the expression
`disable_blocks(..) & enable_blocks(..)`, and the order in which its two operands run is
left to the compiler.  On the ring scheme, `switch_blocks(["iob1"], ["iob1"], true, false)`
returns true in either order; when the left operand runs first `iob1` is disabled, then
enabled, and ends Running, as the comment in the source intends; when the right operand
runs first `iob1` is enabled, then disabled, and ends Stopped. -/
theorem switch_blocks_order_is_not_fixed :
    (switch_blocks OperandOrder.left_first ring_scheme ["iob1"] ["iob1"] true false).1 = true
    ∧ ((switch_blocks OperandOrder.left_first ring_scheme ["iob1"] ["iob1"] true false).2.tasks
        1).state = TaskState.Running
    ∧ (switch_blocks OperandOrder.left_first ring_scheme ["iob1"] ["iob1"] true false).2.calls
        = [Call.start "iob1"]
    ∧ (switch_blocks OperandOrder.right_first ring_scheme ["iob1"] ["iob1"] true false).1 = true
    ∧ ((switch_blocks OperandOrder.right_first ring_scheme ["iob1"] ["iob1"] true false).2.tasks
        1).state = TaskState.Stopped
    ∧ (switch_blocks OperandOrder.right_first ring_scheme ["iob1"] ["iob1"] true false).2.calls
        = [Call.start "iob1", Call.stop "iob1"] := by
  decide

/-- C4: when every registered name resolves to a block whose stop succeeds, after
`set_blocks(enabled_list, strict)` the block of every registered name that is not in
`enabled_list` is not Running, in whichever order the two halves of `switch_blocks`
run. -/
theorem set_blocks_disables_the_rest (order : OperandOrder) (s : Scheme)
    (enabled_list : List String) (strict : Bool)
    (hres : ∀ n ∈ s.block_names_, ∃ p, getPeer s n = some p ∧ (s.tasks p).stopHook = true) :
    ∀ n ∈ s.block_names_, n ∉ enabled_list → ∀ p, getPeer s n = some p →
      ((set_blocks order s enabled_list strict).2.tasks p).state ≠ TaskState.Running := by
  intro n hn hne p hp
  cases order with
  | left_first =>
    obtain ⟨-, d2, -, d4⟩ := disable_blocks_loop_all strict s.block_names_ s hres
    have hname : (s.tasks p).name = n := getPeer_name hp
    have hname1 :
        (((disable_blocks s s.block_names_ strict).2).tasks p).name ∉ enabled_list := by
      have : (((disable_blocks s s.block_names_ strict).2).tasks p).name = (s.tasks p).name :=
        (d2.2.2.2 p).1
      rw [this, hname]; exact hne
    have hframe := (enable_blocks_loop_noforce_frame strict enabled_list true
      (disable_blocks s s.block_names_ strict).2).2 p hname1
    show ((enable_blocks (disable_blocks s s.block_names_ strict).2 enabled_list strict
      false).2.tasks p).state ≠ TaskState.Running
    unfold enable_blocks
    rw [hframe]
    exact d4 n hn p hp
  | right_first =>
    have f1 : SameBlocks s (enable_blocks s enabled_list strict false).2 :=
      (enable_blocks_loop_noforce_frame strict enabled_list true s).1
    have hres1 : ∀ m ∈ s.block_names_, ∃ q,
        getPeer (enable_blocks s enabled_list strict false).2 m = some q
        ∧ ((enable_blocks s enabled_list strict false).2.tasks q).stopHook = true := by
      intro m hm
      obtain ⟨q, hq, hqs⟩ := hres m hm
      exact ⟨q, (getPeer_sameBlocks f1 m).trans hq, by rw [(f1.2.2.2 q).2.2]; exact hqs⟩
    obtain ⟨-, -, -, d4⟩ := disable_blocks_loop_all strict s.block_names_
      (enable_blocks s enabled_list strict false).2 hres1
    exact d4 n hn p ((getPeer_sameBlocks f1 n).trans hp)

/-- C4 (witness): the running ring scheme with only `iob2` kept enabled; `iob1` is left
not Running. -/
theorem set_blocks_disables_the_rest_witness :
    ((set_blocks OperandOrder.left_first running_ring_scheme ["iob2"] true).2.tasks 1).state
      ≠ TaskState.Running :=
  set_blocks_disables_the_rest OperandOrder.left_first running_ring_scheme ["iob2"] true
    (by
      intro n hn
      have hn' : n ∈ ["iob1", "iob2", "iob3", "iob4"] := hn
      simp only [List.mem_cons, List.mem_singleton, List.not_mem_nil, or_false] at hn'
      rcases hn' with rfl | rfl | rfl | rfl
      · exact ⟨1, by decide⟩
      · exact ⟨2, by decide⟩
      · exact ⟨3, by decide⟩
      · exact ⟨4, by decide⟩)
    "iob1" (by decide) (by decide) 1 (by decide)

/-- C5: with strict set, `enable_blocks` and `disable_blocks` apply the single-block
operation name by name, stop at the first name whose operation fails, return false and
leave the later names untouched; without strict they apply it to every name of the list
and return the logical AND of the single results. -/
theorem batch_strictness (s : Scheme) (names : List String) (force : Bool) :
    enable_blocks s names true force
        = strict_batch (fun s n => enable_block_name s n force) names s
    ∧ disable_blocks s names true = strict_batch disable_block_name names s
    ∧ enable_blocks s names false force
        = lenient_batch (fun s n => enable_block_name s n force) names s
    ∧ disable_blocks s names false = lenient_batch disable_block_name names s := by
  refine ⟨enable_blocks_loop_strict force names s, disable_blocks_loop_strict names s, ?_, ?_⟩
  · simp [enable_blocks, enable_blocks_loop_lenient]
  · simp [disable_blocks, disable_blocks_loop_lenient]

/-- What `enable_block` does when the entry of the block in `block_conflicts_` is empty:
it looks at no other block; it refuses an unconfigured block and otherwise returns what
`start()` returns. -/
theorem enable_block_empty_conflicts (s : Scheme) (b : Nat) (force : Bool)
    (hc : s.block_conflicts_ (s.tasks b).name = []) :
    enable_block s (some b) force
      = if isConfigured (s.tasks b) then ((start s b).1, (start s b).2) else (false, s) := by
  simp only [enable_block, hc, enable_block_conflicts]
  by_cases h1 : isConfigured (s.tasks b) = true
  · cases h2 : (start s b).1 <;> simp [h1, h2]
  · simp [h1]

/-- The runtime operations do not write `block_conflicts_`. -/
theorem enable_blocks_keeps_conflicts (s : Scheme) (names : List String) (strict force : Bool) :
    (disable_blocks s names strict).2.block_conflicts_ = s.block_conflicts_
    ∧ (force = false →
        (enable_blocks s names strict force).2.block_conflicts_ = s.block_conflicts_) := by
  constructor
  · have : ∀ (l : List String) (success : Bool) (s : Scheme),
        (disable_blocks_loop strict l success s).2.block_conflicts_ = s.block_conflicts_ := by
      intro l
      induction l with
      | nil => intro _ _; rfl
      | cons n rest ih =>
        intro success s
        have hd : (disable_block_name s n).2.block_conflicts_ = s.block_conflicts_ := by
          unfold disable_block_name
          cases hg : getPeer s n with
          | none => rfl
          | some p => exact (disable_block_effect s p).1.2.1
        simp only [disable_blocks_loop]
        split
        · exact hd
        · rw [ih, hd]
    exact this names true s
  · rintro rfl
    exact (enable_blocks_loop_noforce_frame strict names true s).1.2.1

/-- C6 (the code at the failing input): the scheme is built by `add_block` of `A`, `B` and
`D`; `A` and `B` feed the same input of `D`, which is declared Exclusive; `A` is Running
and `B` is configured and stopped.  Nothing has written `block_conflicts_`, the entry of
`B` is empty, and `enable_block(B, force=false)` returns true and starts `B` while `A`
keeps running. -/
theorem enable_block_ignores_shared_input :
    share_exclusive_input shared_input_scheme 1 2 = true
    ∧ shared_input_scheme.block_names_ = ["A", "B", "D"]
    ∧ (shared_input_scheme.tasks 1).state = TaskState.Running
    ∧ (shared_input_scheme.tasks 2).state = TaskState.Stopped
    ∧ shared_input_scheme.block_conflicts_ "B" = []
    ∧ (enable_block shared_input_scheme (some 2) false).1 = true
    ∧ (enable_block_name shared_input_scheme "B" false).1 = true
    ∧ ((enable_block shared_input_scheme (some 2) false).2.tasks 1).state = TaskState.Running
    ∧ ((enable_block shared_input_scheme (some 2) false).2.tasks 2).state
        = TaskState.Running := by
  decide

/-- C7 (the code at the failing input): in the scheme built by `add_block` in which the
running `A` and the stopped `B` feed the same Exclusive input, `switch_blocks([], ["B"],
strict=true, force=true)` returns true and starts `B`, but makes no `stop()` call: `A` is
still Running, in whichever order the two halves run. -/
theorem switch_blocks_leaves_conflict_running :
    share_exclusive_input shared_input_scheme 1 2 = true
    ∧ (shared_input_scheme.tasks 1).state = TaskState.Running
    ∧ (shared_input_scheme.tasks 2).state = TaskState.Stopped
    ∧ (switch_blocks OperandOrder.left_first shared_input_scheme [] ["B"] true true).1 = true
    ∧ ((switch_blocks OperandOrder.left_first shared_input_scheme [] ["B"] true true).2.tasks
        1).state = TaskState.Running
    ∧ ((switch_blocks OperandOrder.left_first shared_input_scheme [] ["B"] true true).2.tasks
        2).state = TaskState.Running
    ∧ stop_calls
        (switch_blocks OperandOrder.left_first shared_input_scheme [] ["B"] true true).2.calls
        = []
    ∧ (switch_blocks OperandOrder.right_first shared_input_scheme [] ["B"] true true).1 = true
    ∧ ((switch_blocks OperandOrder.right_first shared_input_scheme [] ["B"] true true).2.tasks
        1).state = TaskState.Running
    ∧ ((switch_blocks OperandOrder.right_first shared_input_scheme [] ["B"] true true).2.tasks
        2).state = TaskState.Running := by
  decide

/-! ## Lemmas on graph construction -/

theorem foldl_vertices {α : Type} (f : CausalGraph → α → CausalGraph)
    (hf : ∀ g a, (f g a).vertices = g.vertices) (l : List α) (g : CausalGraph) :
    (l.foldl f g).vertices = g.vertices := by
  induction l generalizing g with
  | nil => rfl
  | cons a rest ih => rw [List.foldl_cons, ih, hf]

theorem add_channel_edge_vertices (g : CausalGraph) (c : ChannelDescriptor) :
    (add_channel_edge g c).vertices = g.vertices := by
  unfold add_channel_edge
  split
  · split
    · split <;> rfl
    · rfl
  · rfl

/-- The vertex loop adds edges only: the vertices stay as they are. -/
theorem regenerate_edges_from_vertices (s : Scheme) (layer : String) (is : List Nat)
    (g g' : CausalGraph) (h : regenerate_edges_from s layer is g = some g') :
    g'.vertices = g.vertices := by
  induction is generalizing g with
  | nil =>
    simp only [regenerate_edges_from, Option.some.injEq] at h
    rw [← h]
  | cons i rest ih =>
    simp only [regenerate_edges_from] at h
    cases hp : layer_ports s i layer with
    | none => rw [hp] at h; simp at h
    | some ports =>
      rw [hp] at h
      rw [ih _ h]
      apply foldl_vertices
      intro g2 port
      exact foldl_vertices _ add_channel_edge_vertices port.channels g2

/-- What a rebuild that ran leaves: the vertices of the layer as they were, the graph of
the other layer, the host state, the registry and the conflict table untouched, and the
ordering the sort of the rebuilt graph produced. -/
theorem regenerate_graph_spec (s : Scheme) (l : Layer) (r : Bool × Scheme)
    (h : regenerate_graph s l = some r) :
    (r.2.graph l).vertices = (s.graph l).vertices
    ∧ r.2.tasks = s.tasks ∧ r.2.peers = s.peers ∧ r.2.block_names_ = s.block_names_
    ∧ r.2.block_conflicts_ = s.block_conflicts_
    ∧ (∀ l', l' ≠ l → r.2.graph l' = s.graph l' ∧ r.2.ordering l' = s.ordering l')
    ∧ r.1 = (topological_sort (r.2.graph l)).1
    ∧ r.2.ordering l = (topological_sort (r.2.graph l)).2 := by
  unfold regenerate_graph at h
  cases hg : regenerate_edges s l with
  | none => rw [hg] at h; simp at h
  | some g =>
    rw [hg] at h
    simp only [Option.some.injEq] at h
    have hv := regenerate_edges_from_vertices s l.name _ _ _ hg
    subst h
    cases l
    · refine ⟨hv, rfl, rfl, rfl, rfl, fun l' hl => ?_, rfl, rfl⟩
      cases l'
      · exact absurd rfl hl
      · exact ⟨rfl, rfl⟩
    · refine ⟨hv, rfl, rfl, rfl, rfl, fun l' hl => ?_, rfl, rfl⟩
      cases l'
      · exact ⟨rfl, rfl⟩
      · exact absurd rfl hl

/-- Attaching a block under a label that exists adds no vertex. -/
theorem attach_block_names (g : CausalGraph) (name : String) (b : Nat)
    (h : name ∈ g.names) : (attach_block g name b).names = g.names := by
  have hm : ∀ (l : List (String × VertexProperties)) (f : VertexProperties → VertexProperties),
      (l.map fun v => if v.1 = name then (v.1, f v.2) else v).map Prod.fst = l.map Prod.fst := by
    intro l f
    rw [List.map_map]
    apply List.map_congr_left
    intro v _
    by_cases hv : v.1 = name <;> simp [hv]
  have ha : g.add_vertex name = g := by
    simp [CausalGraph.add_vertex, h]
  simp only [attach_block, ha, CausalGraph.modify, CausalGraph.names]
  exact hm g.vertices fun v => { v with block := some b, hook := some b }

/-- Registration does not write `block_conflicts_`. -/
theorem add_block_keeps_conflicts (s : Scheme) (new_block : Option Nat) (r : Bool × Scheme)
    (h : add_block s new_block = some r) : r.2.block_conflicts_ = s.block_conflicts_ := by
  have hgraph : ∀ (s0 : Scheme) (l : Layer) (r0 : Bool × Scheme),
      add_block_to_graph s0 new_block l = some r0 →
      r0.2.block_conflicts_ = s0.block_conflicts_ := by
    intro s0 l r0 h0
    unfold add_block_to_graph at h0
    cases new_block with
    | none => simp only [Option.some.injEq] at h0; rw [← h0]
    | some b =>
      simp only at h0
      split at h0
      · simp only [Option.some.injEq] at h0; rw [← h0]
      · cases h1 : regenerate_graph
            (s0.set_graph l (attach_block (s0.graph l) (s0.tasks b).name b)) l with
        | none => rw [h1] at h0; simp at h0
        | some r1 =>
          rw [h1] at h0
          have k1 := (regenerate_graph_spec _ l r1 h1).2.2.2.2.1
          have k0 : (s0.set_graph l (attach_block (s0.graph l) (s0.tasks b).name b)).block_conflicts_
              = s0.block_conflicts_ := by cases l <;> rfl
          simp only at h0
          split at h0
          · have k2 := (regenerate_graph_spec _ l r0 h0).2.2.2.2.1
            have k3 : (r1.2.set_graph l ((r1.2.graph l).remove_vertex
                (s0.tasks b).name)).block_conflicts_ = r1.2.block_conflicts_ := by
              cases l <;> rfl
            rw [k2, k3, k1, k0]
          · simp only [Option.some.injEq] at h0
            rw [← h0, k1, k0]
  unfold add_block at h
  cases new_block with
  | none => simp only [Option.some.injEq] at h; rw [← h]
  | some b =>
    simp only at h
    split at h
    · simp only [Option.some.injEq] at h; rw [← h]
    · cases he : add_block_to_graph s (some b) Layer.estimation with
      | none => rw [he] at h; simp at h
      | some e =>
        rw [he] at h
        have ke := hgraph s Layer.estimation e he
        simp only at h
        split at h
        · simp only [Option.some.injEq] at h; rw [← h, ke]
        · cases hc : add_block_to_graph e.2 (some b) Layer.control with
          | none => rw [hc] at h; simp at h
          | some c =>
            rw [hc] at h
            have kc := hgraph e.2 Layer.control c hc
            simp only at h
            split at h
            · simp only [Option.some.injEq] at h; rw [← h, kc, ke]
            · simp only [Option.some.injEq] at h
              rw [← h]
              exact kc.trans ke

/-- A sequence of `add_block` calls does not write `block_conflicts_`: in a scheme built
from the empty scheme every entry of the table is empty. -/
theorem add_blocks_keeps_conflicts (s s' : Scheme) (blocks : List (Option Nat))
    (h : add_blocks s blocks = some s') : s'.block_conflicts_ = s.block_conflicts_ := by
  induction blocks generalizing s with
  | nil =>
    simp only [add_blocks, Option.some.injEq] at h
    rw [← h]
  | cons b rest ih =>
    simp only [add_blocks] at h
    cases hb : add_block s b with
    | none => rw [hb] at h; simp at h
    | some r =>
      rw [hb] at h
      rw [ih r.2 h, add_block_keeps_conflicts s b r hb]

/-! ## Claims on graph construction -/

/-- C8 (the code at the failing input): in the feedback fixture `iob1` is registered and
the control graph, with the one vertex `iob1`, is acyclic; the connections of `iob2`,
`iob1 → iob2 → iob1` on the control layer, close a cycle, which the rebuild with the new
vertex reports.  `add_block` of `iob2` nevertheless returns true and registers the name,
because `add_block_to_graph` returns the result of the rebuild without the vertex.  The
control ordering then holds the earlier block only.  Every read of the rebuilds is
inside the estimation graph. -/
theorem add_block_closing_cycle_returns_true :
    (feedback_scheme [some 1]).block_names_ = ["iob1"]
    ∧ (topological_sort (feedback_scheme [some 1]).control_graph_).1 = true
    ∧ ((add_block_to_graph (feedback_scheme [some 1]) (some 2) Layer.estimation).bind
          fun e => regenerate_graph (e.2.set_graph Layer.control
            (attach_block e.2.control_graph_ "iob2" 2)) Layer.control).map Prod.fst
        = some false
    ∧ (add_block (feedback_scheme [some 1]) (some 2)).map Prod.fst = some true
    ∧ (add_block (feedback_scheme [some 1]) (some 2)).map (fun r => r.2.control_serialization_)
        = some ["iob1"]
    ∧ (add_block (feedback_scheme [some 1]) (some 2)).map (fun r => r.2.block_names_)
        = some ["iob1", "iob2"] := by
  decide

/-- C9 (the code at the failing input): the calls `add_block(iob1)` to `add_block(iob4)`
on the empty scheme over the feedback fixture all run inside the estimation graph; the
last one returns false, `iob4` is not in `block_names_`, and yet `iob4` has a vertex in
the estimation graph. -/
theorem vertex_without_registry_entry :
    (add_blocks (empty_scheme feedback_tasks [1, 2, 3, 4])
        [some 1, some 2, some 3]).isSome = true
    ∧ (add_block (feedback_scheme [some 1, some 2, some 3]) (some 4)).map Prod.fst = some false
    ∧ (add_block (feedback_scheme [some 1, some 2, some 3]) (some 4)).map
        (fun r => r.2.block_names_) = some ["iob1", "iob2", "iob3"]
    ∧ (add_block (feedback_scheme [some 1, some 2, some 3]) (some 4)).map
        (fun r => r.2.estimation_graph_.names) = some ["iob1", "iob2", "iob3", "iob4"]
    ∧ (add_block (feedback_scheme [some 1, some 2, some 3]) (some 4)).map
        (fun r => r.2.control_graph_.names) = some ["iob1", "iob3"]
    ∧ "iob4" ∉ (feedback_scheme [some 1, some 2, some 3, some 4]).block_names_
    ∧ "iob4" ∈ (feedback_scheme [some 1, some 2, some 3, some 4]).estimation_graph_.names := by
  decide

/-- C10 (counterexample): `iob1` is registered in the ring scheme; `add_block` of `iob1`
returns true, `block_names_` then holds `iob1` twice and the control graph has changed
(the rebuild added its edges once more). -/
theorem add_block_registered_counterexample :
    "iob1" ∈ ring_scheme.block_names_
    ∧ (add_block ring_scheme (some 1)).map Prod.fst = some true
    ∧ (add_block ring_scheme (some 1)).map (fun r => r.2.block_names_)
        = some ["iob1", "iob2", "iob3", "iob4", "iob1"]
    ∧ (add_block ring_scheme (some 1)).map (fun r => r.2.control_graph_.edges.length)
        ≠ some ring_scheme.control_graph_.edges.length := by
  decide

/-- C10 (amended): `add_block` makes no check for a registered name.  For a block with
the hook service whose name is registered and is a vertex of both graphs, when the
rebuild of each layer succeeds `add_block` returns true, adds no vertex to either graph
and appends the name to `block_names_` once more, so that `block_names_` holds the name
twice. -/
theorem add_block_registered_again (s : Scheme) (b : Nat)
    (hhook : HookService.Present s b = true)
    (hreg : (s.tasks b).name ∈ s.block_names_)
    (hest : (s.tasks b).name ∈ s.estimation_graph_.names)
    (hctl : (s.tasks b).name ∈ s.control_graph_.names)
    (he : (regenerate_graph (s.set_graph Layer.estimation
        (attach_block s.estimation_graph_ (s.tasks b).name b)) Layer.estimation).map Prod.fst
      = some true)
    (hc : ((regenerate_graph (s.set_graph Layer.estimation
        (attach_block s.estimation_graph_ (s.tasks b).name b)) Layer.estimation).bind
          fun e => regenerate_graph (e.2.set_graph Layer.control
            (attach_block e.2.control_graph_ (s.tasks b).name b)) Layer.control).map Prod.fst
      = some true) :
    ∃ r, add_block s (some b) = some r
      ∧ r.1 = true
      ∧ r.2.block_names_ = s.block_names_ ++ [(s.tasks b).name]
      ∧ ¬ r.2.block_names_.Nodup
      ∧ r.2.estimation_graph_.names = s.estimation_graph_.names
      ∧ r.2.control_graph_.names = s.control_graph_.names := by
  cases hre : regenerate_graph (s.set_graph Layer.estimation
      (attach_block s.estimation_graph_ (s.tasks b).name b)) Layer.estimation with
  | none => rw [hre] at he; simp at he
  | some e =>
    rw [hre] at he hc
    simp only [Option.map_some', Option.some.injEq] at he
    simp only [Option.some_bind] at hc
    cases hrc : regenerate_graph (e.2.set_graph Layer.control
        (attach_block e.2.control_graph_ (s.tasks b).name b)) Layer.control with
    | none => rw [hrc] at hc; simp at hc
    | some c =>
      rw [hrc] at hc
      simp only [Option.map_some', Option.some.injEq] at hc
      obtain ⟨ev, et, -, en, -, eo, -, -⟩ := regenerate_graph_spec _ _ _ hre
      obtain ⟨cv, ct, -, cn, -, co, -, -⟩ := regenerate_graph_spec _ _ _ hrc
      have het : e.2.tasks = s.tasks := et
      have hcn : c.2.block_names_ = s.block_names_ := cn.trans en
      have hpe : HookService.Present e.2 b = true := by
        unfold HookService.Present at hhook ⊢
        rw [het]; exact hhook
      have hae : add_block_to_graph s (some b) Layer.estimation = some (true, e.2) := by
        simp [add_block_to_graph, hhook, Scheme.graph, hre, he]
      have hac : add_block_to_graph e.2 (some b) Layer.control = some (true, c.2) := by
        simp [add_block_to_graph, hpe, Scheme.graph, het, hrc, hc]
      refine ⟨(true, { c.2 with block_names_ := c.2.block_names_ ++ [(s.tasks b).name] }),
        ?_, rfl, ?_, ?_, ?_, ?_⟩
      · simp [add_block, hhook, hae, hac]
      · show c.2.block_names_ ++ [(s.tasks b).name] = _
        rw [hcn]
      · show ¬ (c.2.block_names_ ++ [(s.tasks b).name]).Nodup
        rw [hcn]
        intro hn
        rw [List.nodup_append] at hn
        exact hn.2.2 hreg (List.mem_singleton_self _)
      · show c.2.estimation_graph_.names = _
        have h1 : c.2.estimation_graph_ = e.2.estimation_graph_ :=
          (co Layer.estimation (by decide)).1
        have h2 : e.2.estimation_graph_.vertices
            = (attach_block s.estimation_graph_ (s.tasks b).name b).vertices := ev
        rw [h1, ← attach_block_names _ _ b hest]
        simp only [CausalGraph.names, h2]
      · show c.2.control_graph_.names = _
        have h1 : e.2.control_graph_ = s.control_graph_ := (eo Layer.control (by decide)).1
        have h2 : c.2.control_graph_.vertices
            = (attach_block e.2.control_graph_ (s.tasks b).name b).vertices := cv
        rw [← attach_block_names _ _ b hctl, ← h1]
        simp only [CausalGraph.names, h2]

/-- C10 (witness): `iob1` added to the ring scheme a second time. -/
theorem add_block_registered_again_witness :
    ∃ r, add_block ring_scheme (some 1) = some r
      ∧ r.1 = true
      ∧ r.2.block_names_ = ring_scheme.block_names_ ++ [(ring_scheme.tasks 1).name]
      ∧ ¬ r.2.block_names_.Nodup
      ∧ r.2.estimation_graph_.names = ring_scheme.estimation_graph_.names
      ∧ r.2.control_graph_.names = ring_scheme.control_graph_.names :=
  add_block_registered_again ring_scheme 1 (by decide) (by decide) (by decide) (by decide)
    (by decide) (by decide)

/-! ## Claims on unknown names, registration by name and unconfigured blocks -/

/-- The conflict loop of a forced enable, when every block of the list that is Running
can be stopped: it goes through, and exactly the running blocks of the list become
Stopped. -/
theorem enable_block_conflicts_force_running (l : List Nat) (s : Scheme)
    (hstop : ∀ x ∈ l, (s.tasks x).state = TaskState.Running → (s.tasks x).stopHook = true) :
    (enable_block_conflicts true l s).1 = true
    ∧ SameBlocks s (enable_block_conflicts true l s).2
    ∧ (∀ p, ((enable_block_conflicts true l s).2.tasks p).state
        = if p ∈ l ∧ (s.tasks p).state = TaskState.Running then TaskState.Stopped
          else (s.tasks p).state)
    ∧ start_calls (enable_block_conflicts true l s).2.calls = start_calls s.calls := by
  induction l generalizing s with
  | nil => exact ⟨rfl, SameBlocks.refl s, fun p => by simp [enable_block_conflicts], rfl⟩
  | cons c rest ih =>
    obtain ⟨hsame, hother, -, hrun, hlog⟩ := disable_block_effect s c
    by_cases hr : (s.tasks c).state = TaskState.Running
    · obtain ⟨h1, h2, -⟩ := hrun hr (hstop c (List.mem_cons_self _ _) hr)
      have hstop1 : ∀ x ∈ rest,
          ((disable_block s (some c)).2.tasks x).state = TaskState.Running →
          ((disable_block s (some c)).2.tasks x).stopHook = true := by
        intro x hx hxr
        rw [(hsame.2.2.2 x).2.2]
        by_cases hxc : x = c
        · subst hxc
          rw [h2] at hxr
          exact absurd hxr (by decide)
        · rw [hother x hxc] at hxr
          exact hstop x (List.mem_cons_of_mem _ hx) hxr
      obtain ⟨i1, i2, i3, i4⟩ := ih (disable_block s (some c)).2 hstop1
      have e : enable_block_conflicts true (c :: rest) s
          = enable_block_conflicts true rest (disable_block s (some c)).2 := by
        simp [enable_block_conflicts, hr, h1]
      rw [e]
      refine ⟨i1, hsame.trans i2, fun p => ?_, i4.trans hlog⟩
      rw [i3 p]
      by_cases hp : p = c
      · subst hp
        simp [h2, hr]
      · rw [hother p hp]
        simp [hp]
    · have hstop1 : ∀ x ∈ rest, (s.tasks x).state = TaskState.Running →
          (s.tasks x).stopHook = true :=
        fun x hx => hstop x (List.mem_cons_of_mem _ hx)
      obtain ⟨i1, i2, i3, i4⟩ := ih s hstop1
      have e : enable_block_conflicts true (c :: rest) s = enable_block_conflicts true rest s := by
        simp [enable_block_conflicts, hr]
      rw [e]
      refine ⟨i1, i2, fun p => ?_, i4⟩
      rw [i3 p]
      by_cases hp : p = c
      · subst hp
        simp [hr]
      · simp [hp]

/-- A name that no peer bears is refused by `add_block(name)`, which leaves the scheme as
it is. -/
theorem add_block_name_unknown (s : Scheme) (name : String) (fuel : Nat)
    (h : hasPeer s name = false) : add_block_name (fuel + 1) s name = some (false, s) := by
  simp [add_block_name, h]

/-- C13 (counterexample): the five names of the test, none of which resolves to a block
of the scheme holding `iob1` to `iob5`; the batch enable with strict and force returns
false, not true.  It starts no block. -/
theorem enable_blocks_unknown_names_counterexample :
    line_scheme.block_names_ = ["iob1", "iob2", "iob3", "iob4", "iob5"]
    ∧ (∀ n ∈ ["io4", "io1", "io5", "io3", "io2"], getPeer line_scheme n = none)
    ∧ (enable_blocks line_scheme ["io4", "io1", "io5", "io3", "io2"] true true).1 = false
    ∧ (enable_blocks line_scheme ["io4", "io1", "io5", "io3", "io2"] true true).2.calls
        = [] := by
  decide

/-- C13 (amended): for every list of names none of which resolves to a peer of the
scheme, `enable_blocks(names, strict=true, force)` starts no block and changes nothing;
it returns true for the empty list only, and false, at the first name, for every other
list. -/
theorem enable_blocks_unknown_names (s : Scheme) (names : List String) (force : Bool)
    (h : ∀ n ∈ names, getPeer s n = none) :
    enable_blocks s names true force = (names.isEmpty, s) := by
  cases names with
  | nil => rfl
  | cons n rest =>
    have hn : getPeer s n = none := h n (List.mem_cons_self _ _)
    simp [enable_blocks, enable_blocks_loop, enable_block_name, hn, enable_block]

/-- C13 (witness): the names of the test on the scheme holding `iob1` to `iob5`. -/
theorem enable_blocks_unknown_names_witness :
    enable_blocks line_scheme ["io4", "io1", "io5", "io3", "io2"] true true
      = (false, line_scheme) :=
  enable_blocks_unknown_names line_scheme ["io4", "io1", "io5", "io3", "io2"] true
    (by decide)

/-- C14 (the code on every name that resolves to a peer): `add_block(name)` calls itself
with the name of the peer it found, which is the same name, and never reaches
`add_block(peer)`: whatever the bound on the depth of the calls, no call returns. -/
theorem add_block_name_never_returns (s : Scheme) (name : String) (b : Nat)
    (h : getPeer s name = some b) (fuel : Nat) : add_block_name fuel s name = none := by
  induction fuel with
  | zero => rfl
  | succ fuel ih =>
    have hname : (s.tasks b).name = name := getPeer_name h
    have hp : hasPeer s name = true := by simp [hasPeer, h]
    have hc : (connectPeers s b).2 = s := by simp [connectPeers, hname, hp]
    simp only [add_block_name, hp, h, hc, hname]
    simpa using ih

/-- C14 (witness): `iob5` is a peer of the ring scheme; a thousand nested calls of
`add_block("iob5")` have not returned. -/
theorem add_block_name_never_returns_witness :
    add_block_name 1000 ring_scheme "iob5" = none :=
  add_block_name_never_returns ring_scheme "iob5" 5 (by decide) 1000

/-- C15: for a block `b` that is not configured, when the stop of every running block of
its conflict list succeeds, a forced enable of `b` returns false, makes no `start()`
call and leaves `b` unconfigured, yet every block of the conflict list that was Running
is Stopped afterwards. -/
theorem enable_block_unconfigured_stops_conflicts (s : Scheme) (b : Nat)
    (hb : (s.tasks b).state = TaskState.Unconfigured)
    (hstop : ∀ x ∈ s.block_conflicts_ (s.tasks b).name,
      (s.tasks x).state = TaskState.Running → (s.tasks x).stopHook = true) :
    (enable_block s (some b) true).1 = false
    ∧ start_calls (enable_block s (some b) true).2.calls = start_calls s.calls
    ∧ ((enable_block s (some b) true).2.tasks b).state = TaskState.Unconfigured
    ∧ ∀ x ∈ s.block_conflicts_ (s.tasks b).name, (s.tasks x).state = TaskState.Running →
        ((enable_block s (some b) true).2.tasks x).state = TaskState.Stopped := by
  obtain ⟨c1, -, c3, c4⟩ :=
    enable_block_conflicts_force_running (s.block_conflicts_ (s.tasks b).name) s hstop
  generalize hc : enable_block_conflicts true (s.block_conflicts_ (s.tasks b).name) s = c
    at c1 c3 c4
  have hb1 : (c.2.tasks b).state = TaskState.Unconfigured := by
    rw [c3 b]; simp [hb]
  have e : enable_block s (some b) true = (false, c.2) := by
    simp [enable_block, hc, c1, isConfigured, hb1]
  rw [e]
  refine ⟨rfl, c4, hb1, fun x hx hr => ?_⟩
  show (c.2.tasks x).state = TaskState.Stopped
  rw [c3 x]
  simp [hx, hr]

/-- C15 (witness): `B` unconfigured, its conflicting block `A` running: the forced enable
of `B` fails and `A` is stopped. -/
theorem enable_block_unconfigured_stops_conflicts_witness :
    (enable_block unconfigured_scheme (some 2) true).1 = false
    ∧ start_calls (enable_block unconfigured_scheme (some 2) true).2.calls
        = start_calls unconfigured_scheme.calls
    ∧ ((enable_block unconfigured_scheme (some 2) true).2.tasks 2).state
        = TaskState.Unconfigured
    ∧ ∀ x ∈ unconfigured_scheme.block_conflicts_ (unconfigured_scheme.tasks 2).name,
        (unconfigured_scheme.tasks x).state = TaskState.Running →
        ((enable_block unconfigured_scheme (some 2) true).2.tasks x).state
          = TaskState.Stopped :=
  enable_block_unconfigured_stops_conflicts unconfigured_scheme 2 (by decide) (by decide)

/-! ## Lemmas on the tick driver -/

theorem find_modify_self (l : List (String × VertexProperties)) (name : String)
    (f : VertexProperties → VertexProperties) :
    ((l.map fun v => if v.1 = name then (v.1, f v.2) else v).find? fun v => v.1 = name)
      = (l.find? fun v => v.1 = name).map fun v => (v.1, f v.2) := by
  induction l with
  | nil => rfl
  | cons a rest ih =>
    by_cases h : a.1 = name
    · simp [List.find?_cons, h]
    · simp [List.find?_cons, h, ih]

theorem find_modify_ne (l : List (String × VertexProperties)) (name n : String)
    (f : VertexProperties → VertexProperties) (hn : n ≠ name) :
    ((l.map fun v => if v.1 = name then (v.1, f v.2) else v).find? fun v => v.1 = n)
      = l.find? fun v => v.1 = n := by
  induction l with
  | nil => rfl
  | cons a rest ih =>
    rw [List.map_cons]
    by_cases h : a.1 = name
    · have h2 : a.1 ≠ n := fun e => hn (e.symm.trans h)
      rw [if_pos h, List.find?_cons_of_neg _ (by simpa using h2),
        List.find?_cons_of_neg _ (by simpa using h2), ih]
    · rw [if_neg h]
      by_cases h2 : a.1 = n
      · rw [List.find?_cons_of_pos _ (by simpa using h2),
          List.find?_cons_of_pos _ (by simpa using h2)]
      · rw [List.find?_cons_of_neg _ (by simpa using h2),
          List.find?_cons_of_neg _ (by simpa using h2), ih]

theorem bundle_modify_self (g : CausalGraph) (name : String)
    (f : VertexProperties → VertexProperties) :
    (g.modify name f).bundle name = (g.bundle name).map f := by
  simp only [CausalGraph.bundle, CausalGraph.modify, find_modify_self, Option.map_map]
  rfl

theorem bundle_modify_ne (g : CausalGraph) (name n : String)
    (f : VertexProperties → VertexProperties) (hn : n ≠ name) :
    (g.modify name f).bundle n = g.bundle n := by
  simp only [CausalGraph.bundle, CausalGraph.modify, find_modify_ne _ _ _ _ hn]

theorem set_last_time_spec (l : Layer) (now : Int) (v : VertexProperties) :
    (l.set_last_time now v).block = v.block ∧ (l.set_last_time now v).hook = v.hook
    ∧ l.last_time (l.set_last_time now v) = now := by
  cases l <;> exact ⟨rfl, rfl, rfl⟩

theorem due_congr (s : Scheme) (now : Int) (l : Layer) (v v0 : VertexProperties)
    (hb : v.block = v0.block) (hh : v.hook = v0.hook) (ht : l.last_time v = l.last_time v0) :
    due s now l v ↔ due s now l v0 := by
  simp [due, vertex_running, get_period, hb, hh, ht]

/-- One step of a walk keeps the log it had and adds only invocations of the layer on the
vertex of the step. -/
theorem update_vertex_log (s : Scheme) (now : Int) (l : Layer)
    (acc : CausalGraph × List HookCall) (w : String) :
    (∀ c ∈ acc.2, c ∈ (update_vertex s now l acc w).2)
    ∧ ∀ c ∈ (update_vertex s now l acc w).2, c ∈ acc.2 ∨ (c.name = w ∧ c.hook ∈ l.hooks) := by
  unfold update_vertex
  cases hbd : acc.1.bundle w with
  | none => exact ⟨fun c hc => hc, fun c hc => Or.inl hc⟩
  | some v =>
    by_cases hd : vertex_running s v = true ∧ nsecs_sub now (l.last_time v) ≥ get_period s v
    · simp only [hd, and_self, if_true]
      refine ⟨fun c hc => List.mem_append_left _ hc, fun c hc => ?_⟩
      rcases List.mem_append.1 hc with h | h
      · exact Or.inl h
      · obtain ⟨h0, hh, rfl⟩ := List.mem_map.1 h
        exact Or.inr ⟨rfl, hh⟩
    · simp only [hd, if_false]
      exact ⟨fun c hc => hc, fun c hc => Or.inl hc⟩

theorem update_vertex_bundle_ne (s : Scheme) (now : Int) (l : Layer)
    (acc : CausalGraph × List HookCall) (w name : String) (hw : name ≠ w) :
    (update_vertex s now l acc w).1.bundle name = acc.1.bundle name := by
  unfold update_vertex
  cases hbd : acc.1.bundle w with
  | none => rfl
  | some v =>
    by_cases hd : vertex_running s v = true ∧ nsecs_sub now (l.last_time v) ≥ get_period s v
    · simp only [hd, and_self, if_true]
      exact bundle_modify_ne _ _ _ _ hw
    · simp only [hd, if_false]

/-- What the step on a vertex does, given its bundle. -/
theorem update_vertex_self (s : Scheme) (now : Int) (l : Layer)
    (acc : CausalGraph × List HookCall) (name : String) (v : VertexProperties)
    (hv : acc.1.bundle name = some v) :
    (due s now l v →
      (update_vertex s now l acc name).1.bundle name = some (l.set_last_time now v)
      ∧ (update_vertex s now l acc name).2 = acc.2 ++ l.hooks.map fun h =>
          { hook := h, name := name, now := now, elapsed := nsecs_sub now (l.last_time v) })
    ∧ (¬ due s now l v → update_vertex s now l acc name = acc) := by
  unfold update_vertex due
  rw [hv]
  constructor
  · intro hd
    show (if vertex_running s v = true ∧ nsecs_sub now (l.last_time v) ≥ get_period s v then _
      else acc).1.bundle name = _ ∧ (if vertex_running s v = true
        ∧ nsecs_sub now (l.last_time v) ≥ get_period s v then _ else acc).2 = _
    rw [if_pos hd]
    exact ⟨by rw [bundle_modify_self, hv]; rfl, rfl⟩
  · intro hd
    show (if vertex_running s v = true ∧ nsecs_sub now (l.last_time v) ≥ get_period s v then _
      else acc) = acc
    rw [if_neg hd]

theorem settled_step (s : Scheme) (now : Int) (l : Layer) (name : String)
    (v0 : VertexProperties) (acc : CausalGraph × List HookCall) (w : String)
    (h : Settled s now l name v0 acc) :
    Settled s now l name v0 (update_vertex s now l acc w) := by
  obtain ⟨v, hv, hb, hh, hrun, hnot⟩ := h
  obtain ⟨lkeep, lnew⟩ := update_vertex_log s now l acc w
  by_cases hw : name = w
  · subst hw
    obtain ⟨sd, sn⟩ := update_vertex_self s now l acc name v hv
    by_cases hd : due s now l v
    · obtain ⟨e1, -⟩ := sd hd
      obtain ⟨p1, p2, p3⟩ := set_last_time_spec l now v
      refine ⟨l.set_last_time now v, e1, p1.trans hb, p2.trans hh, ?_, ?_⟩
      · intro hd0
        exact ⟨p3, fun k hk => lkeep _ ((hrun hd0).2 k hk)⟩
      · intro hd0
        exact absurd ((due_congr s now l v v0 hb hh (hnot hd0).1).1 hd) hd0
    · rw [sn hd]
      exact ⟨v, hv, hb, hh, hrun, hnot⟩
  · refine ⟨v, (update_vertex_bundle_ne s now l acc w name hw).trans hv, hb, hh, ?_, ?_⟩
    · intro hd0
      exact ⟨(hrun hd0).1, fun k hk => lkeep _ ((hrun hd0).2 k hk)⟩
    · intro hd0
      refine ⟨(hnot hd0).1, fun c hc hcn => ?_⟩
      rcases lnew c hc with h1 | h1
      · exact (hnot hd0).2 c h1 hcn
      · exact absurd (hcn.symm.trans h1.1) hw

theorem settled_walk (s : Scheme) (now : Int) (l : Layer) (name : String)
    (v0 : VertexProperties) (ord : List String) (acc : CausalGraph × List HookCall)
    (h : Settled s now l name v0 acc) :
    Settled s now l name v0 (ord.foldl (update_vertex s now l) acc) := by
  induction ord generalizing acc with
  | nil => exact h
  | cons w rest ih => exact ih _ (settled_step s now l name v0 acc w h)

theorem pending_step_self (s : Scheme) (now : Int) (l : Layer) (name : String)
    (v0 : VertexProperties) (acc : CausalGraph × List HookCall)
    (h : Pending l name v0 acc) :
    Settled s now l name v0 (update_vertex s now l acc name) := by
  obtain ⟨v, hv, hb, hh, ht, hlog⟩ := h
  obtain ⟨sd, sn⟩ := update_vertex_self s now l acc name v hv
  have hc := due_congr s now l v v0 hb hh ht
  by_cases hd : due s now l v
  · obtain ⟨e1, e2⟩ := sd hd
    obtain ⟨p1, p2, p3⟩ := set_last_time_spec l now v
    refine ⟨l.set_last_time now v, e1, p1.trans hb, p2.trans hh, ?_, ?_⟩
    · intro _
      refine ⟨p3, fun k hk => ?_⟩
      rw [e2, ← ht]
      exact List.mem_append_right _ (List.mem_map.2 ⟨k, hk, rfl⟩)
    · intro hd0
      exact absurd (hc.1 hd) hd0
  · rw [sn hd]
    refine ⟨v, hv, hb, hh, ?_, ?_⟩
    · intro hd0
      exact absurd (hc.2 hd0) hd
    · intro _
      exact ⟨ht, hlog⟩

theorem pending_step_other (s : Scheme) (now : Int) (l : Layer) (name : String)
    (v0 : VertexProperties) (acc : CausalGraph × List HookCall) (w : String) (hw : name ≠ w)
    (h : Pending l name v0 acc) :
    Pending l name v0 (update_vertex s now l acc w) := by
  obtain ⟨v, hv, hb, hh, ht, hlog⟩ := h
  obtain ⟨-, lnew⟩ := update_vertex_log s now l acc w
  refine ⟨v, (update_vertex_bundle_ne s now l acc w name hw).trans hv, hb, hh, ht, ?_⟩
  intro c hc hcn
  rcases lnew c hc with h1 | h1
  · exact hlog c h1 hcn
  · exact absurd (hcn.symm.trans h1.1) hw

/-- A walk that meets a pending vertex settles it. -/
theorem pending_walk (s : Scheme) (now : Int) (l : Layer) (name : String)
    (v0 : VertexProperties) (ord : List String) (acc : CausalGraph × List HookCall)
    (hmem : name ∈ ord) (h : Pending l name v0 acc) :
    Settled s now l name v0 (update_layer s now l ord acc.1 acc.2) := by
  unfold update_layer
  induction ord generalizing acc with
  | nil => exact absurd hmem (List.not_mem_nil _)
  | cons w rest ih =>
    rw [List.foldl_cons]
    by_cases hw : name = w
    · subst hw
      exact settled_walk s now l name v0 rest _ (pending_step_self s now l name v0 acc h)
    · have hm : name ∈ rest := by
        rcases List.mem_cons.1 hmem with e | e
        · exact absurd e hw
        · exact e
      exact ih _ hm (pending_step_other s now l name v0 acc w hw h)

/-- A walk keeps the log it had and adds only invocations of its layer. -/
theorem update_layer_log (s : Scheme) (now : Int) (l : Layer) (ord : List String)
    (g : CausalGraph) (log : List HookCall) :
    (∀ c ∈ log, c ∈ (update_layer s now l ord g log).2)
    ∧ ∀ c ∈ (update_layer s now l ord g log).2, c ∈ log ∨ c.hook ∈ l.hooks := by
  unfold update_layer
  generalize hacc : (g, log) = acc
  have hl : log = acc.2 := by rw [← hacc]
  rw [hl]
  clear hl hacc
  induction ord generalizing acc with
  | nil => exact ⟨fun c hc => hc, fun c hc => Or.inl hc⟩
  | cons w rest ih =>
    rw [List.foldl_cons]
    obtain ⟨k1, k2⟩ := update_vertex_log s now l acc w
    obtain ⟨i1, i2⟩ := ih (update_vertex s now l acc w)
    refine ⟨fun c hc => i1 c (k1 c hc), fun c hc => ?_⟩
    rcases i2 c hc with h | h
    · rcases k2 c h with h' | h'
      · exact Or.inl h'
      · exact Or.inr h'.2
    · exact Or.inr h

/-- What a settled vertex tells about a log that extends the log of its walk by
invocations of the other layer only. -/
theorem settled_reading (s : Scheme) (now : Int) (l : Layer) (name : String)
    (v0 : VertexProperties) (acc : CausalGraph × List HookCall) (log : List HookCall)
    (h : Settled s now l name v0 acc)
    (hkeep : ∀ c ∈ acc.2, c ∈ log)
    (hnew : ∀ c ∈ log, c ∈ acc.2 ∨ c.hook ∉ l.hooks) :
    (∀ k ∈ l.hooks, (∃ c ∈ log, c.hook = k ∧ c.name = name) ↔ due s now l v0)
    ∧ (due s now l v0 → ∀ k ∈ l.hooks,
        ({ hook := k, name := name, now := now, elapsed := nsecs_sub now (l.last_time v0) } : HookCall)
          ∈ log)
    ∧ (due s now l v0 → (acc.1.bundle name).map l.last_time = some now)
    ∧ (¬ due s now l v0 → (acc.1.bundle name).map l.last_time = some (l.last_time v0)) := by
  obtain ⟨v, hv, -, -, hrun, hnot⟩ := h
  refine ⟨fun k hk => ⟨?_, ?_⟩, fun hd k hk => hkeep _ ((hrun hd).2 k hk), ?_, ?_⟩
  · rintro ⟨c, hc, hck, hcn⟩
    by_contra hd
    rcases hnew c hc with h1 | h1
    · exact (hnot hd).2 c h1 hcn (hck ▸ hk)
    · exact h1 (hck ▸ hk)
  · intro hd
    exact ⟨_, hkeep _ ((hrun hd).2 k hk), rfl, rfl⟩
  · intro hd
    rw [hv, Option.map_some', (hrun hd).1]
  · intro hd
    rw [hv, Option.map_some', (hnot hd).1]

theorem hooks_disjoint (k : Hook) :
    (k ∈ Layer.estimation.hooks → k ∉ Layer.control.hooks)
    ∧ (k ∈ Layer.control.hooks → k ∉ Layer.estimation.hooks) := by
  cases k <;> decide

/-- Every vertex of a layer's serialization is settled by `updateHook`. -/
theorem updateHook_settles (s : Scheme) (now : Int) (l : Layer) (name : String)
    (v : VertexProperties) (hord : name ∈ s.ordering l)
    (hv : (s.graph l).bundle name = some v) :
    (∀ k ∈ l.hooks, (∃ c ∈ (updateHook s now).1, c.hook = k ∧ c.name = name) ↔ due s now l v)
    ∧ (due s now l v → ∀ k ∈ l.hooks,
        ({ hook := k, name := name, now := now, elapsed := nsecs_sub now (l.last_time v) } : HookCall)
          ∈ (updateHook s now).1)
    ∧ (due s now l v →
        (((updateHook s now).2.graph l).bundle name).map l.last_time = some now)
    ∧ (¬ due s now l v →
        (((updateHook s now).2.graph l).bundle name).map l.last_time
          = some (l.last_time v)) := by
  obtain ⟨ekeep, enew⟩ := update_layer_log s now Layer.estimation s.estimation_serialization_
    s.estimation_graph_ []
  obtain ⟨ckeep, cnew⟩ := update_layer_log s now Layer.control s.control_serialization_
    s.control_graph_ (update_layer s now Layer.estimation s.estimation_serialization_
      s.estimation_graph_ []).2
  cases l with
  | estimation =>
    have hp : Pending Layer.estimation name v (s.estimation_graph_, []) :=
      ⟨v, hv, rfl, rfl, rfl, fun c hc => absurd hc (List.not_mem_nil _)⟩
    have hs := pending_walk s now Layer.estimation name v s.estimation_serialization_
      (s.estimation_graph_, []) hord hp
    exact settled_reading s now Layer.estimation name v _ (updateHook s now).1 hs
      (fun c hc => ckeep c hc)
      (fun c hc => (cnew c hc).imp id fun h => (hooks_disjoint c.hook).2 h)
  | control =>
    have hp : Pending Layer.control name v (s.control_graph_,
        (update_layer s now Layer.estimation s.estimation_serialization_
          s.estimation_graph_ []).2) := by
      refine ⟨v, hv, rfl, rfl, rfl, fun c hc _ => ?_⟩
      rcases enew c hc with h | h
      · exact absurd h (List.not_mem_nil _)
      · exact (hooks_disjoint c.hook).1 h
    have hs := pending_walk s now Layer.control name v s.control_serialization_ _ hord hp
    exact settled_reading s now Layer.control name v _ (updateHook s now).1 hs
      (fun c hc => hc) (fun c hc => Or.inl hc)

/-! ## Claim on the tick driver -/

theorem nsecs_of_range (x : Int) (h1 : -(2 : Int) ^ 63 ≤ x) (h2 : x < (2 : Int) ^ 63) :
    nsecs x = x := by
  unfold nsecs
  have e : (x + 2 ^ 63) % 2 ^ 64 = x + 2 ^ 63 := Int.emod_eq_of_lt (by omega) (by omega)
  rw [e]
  omega

/-- C12 (counterexample): after a tick at time 1 the control time stamp of `iob2` in the
running ring scheme is 1 and its period is 0.  At `now = -2^63` the difference
`now - last_time` is below the period, yet `updateHook` invokes `compute_control` and
`write_hardware` on `iob2`: the source subtracts on 64 bits and the difference wraps to
`2^63 - 1`. -/
theorem updateHook_wraps_counterexample :
    ticked_ring_scheme.control_serialization_ = ["iob1", "iob2", "iob3", "iob4"]
    ∧ (ticked_ring_scheme.control_graph_.bundle "iob2").map
        (fun v => (v.block, v.last_control_time, get_period ticked_ring_scheme v))
        = some (some 2, 1, 0)
    ∧ (ticked_ring_scheme.tasks 2).state = TaskState.Running
    ∧ ¬ ((-9223372036854775808 : Int) - 1 ≥ 0)
    ∧ ({ hook := Hook.compute_control, name := "iob2", now := -9223372036854775808,
          elapsed := 9223372036854775807 } : HookCall)
        ∈ (updateHook ticked_ring_scheme (-9223372036854775808)).1
    ∧ ({ hook := Hook.write_hardware, name := "iob2", now := -9223372036854775808,
          elapsed := 9223372036854775807 } : HookCall)
        ∈ (updateHook ticked_ring_scheme (-9223372036854775808)).1 := by
  decide

/-- C12 (amended): in one `updateHook` call with time `now`, for every vertex of a layer's
serialization, with its bundle `v` and its block `b`, such that `now - v.last_time[layer]`
is within the signed 64-bit range, each of the layer's two entry points is invoked on
the vertex if and only if the block is Running and `now - v.last_time[layer] ≥ period`;
when it is, both are invoked with that elapsed time; and the time stamp of the vertex
on the layer is `now` afterwards when the vertex was invoked and what it was when the
vertex was skipped. -/
theorem updateHook_runs_due_vertices (s : Scheme) (now : Int) (l : Layer) (name : String)
    (v : VertexProperties) (b : Nat)
    (hord : name ∈ s.ordering l)
    (hv : (s.graph l).bundle name = some v)
    (hb : v.block = some b)
    (hlow : -(2 : Int) ^ 63 ≤ now - l.last_time v)
    (hhigh : now - l.last_time v < (2 : Int) ^ 63) :
    (∀ k ∈ l.hooks,
      (∃ c ∈ (updateHook s now).1, c.hook = k ∧ c.name = name)
        ↔ ((s.tasks b).state = TaskState.Running ∧ now - l.last_time v ≥ get_period s v))
    ∧ (((s.tasks b).state = TaskState.Running ∧ now - l.last_time v ≥ get_period s v) →
        ∀ k ∈ l.hooks,
          ({ hook := k, name := name, now := now, elapsed := now - l.last_time v } : HookCall)
            ∈ (updateHook s now).1)
    ∧ (((updateHook s now).2.graph l).bundle name).map l.last_time
        = some (if (s.tasks b).state = TaskState.Running
            ∧ now - l.last_time v ≥ get_period s v then now else l.last_time v) := by
  have hsub : nsecs_sub now (l.last_time v) = now - l.last_time v :=
    nsecs_of_range _ hlow hhigh
  have hd : due s now l v
      ↔ ((s.tasks b).state = TaskState.Running ∧ now - l.last_time v ≥ get_period s v) := by
    simp [due, vertex_running, hb, hsub]
  obtain ⟨h1, h2, h3, h4⟩ := updateHook_settles s now l name v hord hv
  rw [hsub] at h2
  refine ⟨fun k hk => (h1 k hk).trans hd, fun hr => h2 (hd.2 hr), ?_⟩
  by_cases hr : (s.tasks b).state = TaskState.Running ∧ now - l.last_time v ≥ get_period s v
  · rw [if_pos hr]; exact h3 (hd.2 hr)
  · rw [if_neg hr]; exact h4 fun h => hr (hd.1 h)

/-- C12 (witness): the running ring scheme at time 10: `iob2` is Running and its period
0 has elapsed, so `compute_control` and `write_hardware` are invoked on it with elapsed
time 10 and its control time stamp becomes 10. -/
theorem updateHook_runs_due_vertices_witness :
    ({ hook := Hook.compute_control, name := "iob2", now := 10, elapsed := 10 } : HookCall)
        ∈ (updateHook running_ring_scheme 10).1
    ∧ ({ hook := Hook.write_hardware, name := "iob2", now := 10, elapsed := 10 } : HookCall)
        ∈ (updateHook running_ring_scheme 10).1
    ∧ (((updateHook running_ring_scheme 10).2.graph Layer.control).bundle "iob2").map
        Layer.control.last_time = some 10 :=
  have h := updateHook_runs_due_vertices running_ring_scheme 10 Layer.control "iob2"
    { block := some 2, hook := some 2 } 2 (by decide) (by decide) rfl (by decide) (by decide)
  ⟨h.2.1 (by decide) Hook.compute_control (by decide),
    h.2.1 (by decide) Hook.write_hardware (by decide), h.2.2.trans (by decide)⟩

/-! ## The order the sort produces -/

end conman
